import Mathlib

/-!
# Cellbeat additive synthesiser: a shallow embedding of `audio.c`

The C source keeps one global `Synth` holding sixteen `Voice` slots, a WAV file
handle and a sample counter.  Here every function of the source that touches
that state is a pure function on an explicit state value.

* `double` values are elements of an arbitrary linearly ordered field `α` with a
  floor function (exact arithmetic); the theorems hold in particular for `ℝ`
  and for `ℚ`, and the definitions evaluate on `ℚ`.
* `sin` comes from libm and is a parameter of the rendering functions.
* `rand()` and `RAND_MAX` come from libc: the value drawn and the constant are
  parameters of `play_tone`.
* `int16_t`, `int32_t`, `uint16_t` and `uint32_t` are integers reduced
  explicitly to their width; the conversion of a `double` to an integer type
  truncates, and a value outside `int32_t` (undefined in C) converts to
  `INT32_MIN`.
* The `pthread` mutex is not modelled: each function is one atomic step.
-/

namespace Cellbeat

/-! ## Constants (`#define`s of the source) -/

def SAMPLE_RATE : Nat := 44100
def MAX_VOLUME : Nat := 32767
def MAX_POLYPHONY : Nat := 16
def BUFFER_SIZE : Nat := 1024
def MAX_HARMONICS : Nat := 100

section Doubles

variable {α : Type} [LinearOrderedField α]

def PI : α := 3.14159265358979323846
def ATTACK_TIME : α := 0.001
def DECAY_TIME : α := 0.04
def SUSTAIN_LEVEL : α := 0.2
def RELEASE_TIME : α := 0.2
def CLIP_THRESHOLD : α := 0.95

/-- The `Voice` struct.  `active` is the `int` flag (only ever 0 or 1),
`harmonic_weights` the fixed array of `MAX_HARMONICS` doubles. -/
structure Voice (α : Type) where
  active : Bool
  frequency : α
  duration : α
  phase : α
  phase_increment : α
  elapsedTime : α
  num_harmonics : Int
  harmonic_weights : Fin MAX_HARMONICS → α

/-- Function `adsr_envelope`: the four-segment envelope, read off the
`elapsedTime` and the `duration` of the voice. -/
def adsr_envelope (voice : Voice α) : α :=
  let time := voice.elapsedTime
  if time < ATTACK_TIME then
    time / ATTACK_TIME
  else if time < ATTACK_TIME + DECAY_TIME then
    1 - (1 - SUSTAIN_LEVEL) * ((time - ATTACK_TIME) / DECAY_TIME)
  else if time < voice.duration - RELEASE_TIME then
    SUSTAIN_LEVEL
  else if time < voice.duration then
    SUSTAIN_LEVEL * (1 - (time - (voice.duration - RELEASE_TIME)) / RELEASE_TIME)
  else
    0

/-- Function `soft_clip`: identity inside the threshold, rational saturation outside
(`pow(_, 2)` is the square). -/
def soft_clip (sample : α) : α :=
  let threshold : α := CLIP_THRESHOLD
  if sample > threshold then
    threshold + (sample - threshold) / (1 + ((sample - threshold) / (1 - threshold)) ^ 2)
  else if sample < -threshold then
    -threshold + (sample + threshold) / (1 + ((sample + threshold) / (1 - threshold)) ^ 2)
  else
    sample

end Doubles

/-! ## Machine integers -/

/-- Reduction of an integer to the signed two's-complement range of width `w`. -/
def wrap_signed (w : Nat) (x : Int) : Int :=
  (x + 2 ^ (w - 1)) % 2 ^ w - 2 ^ (w - 1)

/-- Reduction of a natural number to `uint32_t`. -/
def u32 (x : Nat) : Nat := x % 2 ^ 32

/-- Reduction of a natural number to `uint16_t`. -/
def u16 (x : Nat) : Nat := x % 2 ^ 16

section Render

variable {α : Type} [LinearOrderedField α] [FloorRing α]

/-- Conversion of a `double` to an integer type drops the fractional part
(rounds toward zero). -/
def trunc (x : α) : Int :=
  if 0 ≤ x then Int.floor x else Int.ceil x

/-- The cast `(int32_t)x` of a double: the truncated value when it is an
`int32_t`.  Outside that range the conversion is undefined in C; it is given
the value `INT32_MIN`, which the x86 conversion instruction returns. -/
def to_int32 (x : α) : Int :=
  if -2147483648 ≤ trunc x ∧ trunc x ≤ 2147483647 then trunc x else -2147483648

/-- The cast `(int16_t)x` of a double; line 163 only applies it to values
within the `int16_t` range, where it is the truncated value. -/
def to_int16 (x : α) : Int := wrap_signed 16 (trunc x)

/-- Read of `harmonic_weights[h]`; the array has `MAX_HARMONICS` entries and a
read past its end is given the value 0. -/
def Voice.weight (voice : Voice α) (h : Nat) : α :=
  if hh : h < MAX_HARMONICS then voice.harmonic_weights ⟨h, hh⟩ else 0

/-- The harmonic loop of `audio_callback_synth` (lines 153-157):
`val += harmonic_weights[h] * sin((h + 1) * phase)` for `h < num_harmonics`. -/
def harmonic_sum (sin : α → α) (voice : Voice α) : α :=
  (List.range voice.num_harmonics.toNat).foldl
    (fun val h => val + voice.weight h * sin (((h + 1 : Nat) : α) * voice.phase)) 0

/-- The integer amount one voice adds to a sample (line 162):
`(int32_t)(val * (MAX_VOLUME / MAX_POLYPHONY))` with `val` the harmonic sum
scaled by the envelope; the division of the two constants is the integer one. -/
def voice_sample (sin : α → α) (voice : Voice α) : Int :=
  let env := adsr_envelope voice
  let val := harmonic_sum sin voice * env
  to_int32 (val * ((MAX_VOLUME / MAX_POLYPHONY : Nat) : α))

/-- Lines 161-163: the sample read back from the buffer is widened to
`int32_t`, the voice's amount is added, and the limited value is stored. -/
def mix_sample (α : Type) [LinearOrderedField α] [FloorRing α] (old : Int) (add : Int) : Int :=
  let sample_val := wrap_signed 32 (old + add)
  to_int16 (soft_clip ((sample_val : α) / (MAX_VOLUME : α)) * (MAX_VOLUME : α))

/-- Lines 165-167: phase advance with a single wrap, and time advance. -/
def advance (voice : Voice α) : Voice α :=
  let phase := voice.phase + voice.phase_increment
  let phase := if phase ≥ 2 * PI then phase - 2 * PI else phase
  { voice with phase := phase, elapsedTime := voice.elapsedTime + 1 / (SAMPLE_RATE : α) }

/-- The frame loop of one voice (lines 146-168), from frame `i` with `n` frames
left: a voice whose time is up is retired and the loop is left (`break`). -/
def frame_loop (sin : α → α) : Nat → Nat → Voice α → (Nat → Int) → Voice α × (Nat → Int)
  | 0, _, voice, samples => (voice, samples)
  | n + 1, i, voice, samples =>
    if voice.elapsedTime ≥ voice.duration then
      ({ voice with active := false }, samples)
    else
      frame_loop sin n (i + 1) (advance voice)
        (Function.update samples i (mix_sample α (samples i) (voice_sample sin voice)))

/-- The pool of `MAX_POLYPHONY` voices. -/
abbrev Voices (α : Type) := Fin MAX_POLYPHONY → Voice α

/-- Body of the voice loop (lines 143-168) for the slot `v`: an inactive voice
is skipped (`continue`), an active one runs its frame loop from frame 0. -/
def voice_step (sin : α → α) (frames : Nat) (st : Voices α × (Nat → Int))
    (v : Fin MAX_POLYPHONY) : Voices α × (Nat → Int) :=
  if !(st.1 v).active then st
  else
    let r := frame_loop sin frames 0 (st.1 v) st.2
    (Function.update st.1 v r.1, r.2)

/-- Lines 138-169: the buffer is zeroed and the voices are generated into it,
in slot order. -/
def mix_voices (sin : α → α) (voices : Voices α) (frames : Nat) : Voices α × (Nat → Int) :=
  (List.finRange MAX_POLYPHONY).foldl (voice_step sin frames) (voices, fun _ => 0)

/-! ## The recorder's file -/

/-- A `FILE *` opened for binary writing: the bytes of the file and the
position of the next write. -/
structure File where
  bytes : List Nat
  pos : Nat
deriving DecidableEq

/-- Writing `data` at the current position: bytes already there are
overwritten, the file grows as needed (a gap is zero-filled). -/
def File.fwrite (f : File) (data : List Nat) : File :=
  { bytes := (f.bytes ++ List.replicate (f.pos - f.bytes.length) 0).take f.pos ++ data ++
      f.bytes.drop (f.pos + data.length)
    pos := f.pos + data.length }

/-- Repositioning, `fseek(file, offset, SEEK_SET)`. -/
def File.fseek (f : File) (offset : Nat) : File :=
  { f with pos := offset }

/-- Little-endian bytes of a `uint32_t`. -/
def le32 (x : Nat) : List Nat :=
  [x % 256, x / 256 % 256, x / 65536 % 256, x / 16777216 % 256]

/-- Little-endian bytes of a `uint16_t`. -/
def le16 (x : Nat) : List Nat :=
  [x % 256, x / 256 % 256]

/-- Little-endian bytes of an `int16_t` (two's complement). -/
def le16s (x : Int) : List Nat :=
  le16 (x % 65536).toNat

/-- The bytes of a four-character tag such as `"RIFF"`. -/
def tag (t : String) : List Nat :=
  t.toList.map Char.toNat

/-- Function `write_wav_header`: thirteen `fwrite` calls, the canonical header
with both size fields 0.  `byte_rate` is computed in `uint32_t`, `block_align`
is stored in a `uint16_t`. -/
def write_wav_header (file : File) (sample_rate bits_per_sample channels : Nat) : File :=
  let byte_rate := u32 (sample_rate * channels * bits_per_sample) / 8
  let block_align := u16 (channels * bits_per_sample / 8)
  let file := file.fwrite (tag "RIFF")
  let chunk_size := 0
  let file := file.fwrite (le32 chunk_size)
  let file := file.fwrite (tag "WAVE")
  let file := file.fwrite (tag "fmt ")
  let subchunk1_size := 16
  let file := file.fwrite (le32 subchunk1_size)
  let audio_format := 1
  let file := file.fwrite (le16 audio_format)
  let file := file.fwrite (le16 channels)
  let file := file.fwrite (le32 sample_rate)
  let file := file.fwrite (le32 byte_rate)
  let file := file.fwrite (le16 block_align)
  let file := file.fwrite (le16 bits_per_sample)
  let file := file.fwrite (tag "data")
  let data_chunk_size := 0
  file.fwrite (le32 data_chunk_size)

/-- Function `finalize_wav_file`: both size fields are rewritten in place, at
the offsets 4 and 40; the sizes are computed in `uint32_t`. -/
def finalize_wav_file (file : File) (total_samples : Nat) : File :=
  let data_chunk_size := u32 (total_samples * 2)
  let chunk_size := u32 (36 + data_chunk_size)
  let file := file.fseek 4
  let file := file.fwrite (le32 chunk_size)
  let file := file.fseek 40
  file.fwrite (le32 data_chunk_size)

/-! ## The synthesiser state -/

/-- The `Synth` struct, without the audio queue and the mutex. -/
structure Synth (α : Type) where
  voices : Voices α
  wav_file : Option File
  total_samples_written : Nat
  recording : Bool

/-- The state `PyInit_audio` sets up: every voice zeroed, no recording. -/
def Synth.init (α : Type) [LinearOrderedField α] : Synth α :=
  { voices := fun _ => ⟨false, 0, 0, 0, 0, 0, 0, fun _ => 0⟩
    wav_file := none
    total_samples_written := 0
    recording := false }

/-- First inactive slot at or after the ones in `l` (the scan of line 113-114). -/
def first_inactive (voices : Voices α) : List (Fin MAX_POLYPHONY) → Option (Fin MAX_POLYPHONY)
  | [] => none
  | v :: l => if !(voices v).active then some v else first_inactive voices l

/-- The weight loop of `play_tone` (lines 124-125). -/
def scale_weights (weights : Fin MAX_HARMONICS → α) (harmonics : List α) (num_harmonics : Int)
    (velocity_scale : α) : Fin MAX_HARMONICS → α :=
  (List.range num_harmonics.toNat).foldl
    (fun w i => if hi : i < MAX_HARMONICS then
        Function.update w ⟨i, hi⟩ (harmonics.getD i 0 * velocity_scale) else w)
    weights

/-- Lines 116-125 of `play_tone`: the slot `old` is initialised for the new
note (`num_harmonics` is already clamped).  `r` is the value `rand()` returns
and `RAND_MAX` the libc constant; `harmonics` is the array behind the pointer
(a read past its end is given the value 0). -/
def init_voice (RAND_MAX r : Int) (old : Voice α) (freq duration : α) (harmonics : List α)
    (num_harmonics : Int) (velocity : Int) : Voice α :=
  let velocity_scale : α := min (max ((velocity : α) / 127) 0) 1
  { active := true
    frequency := freq
    duration := duration
    phase := (r : α) / (RAND_MAX : α) * 2 * PI
    phase_increment := 2 * PI * freq / (SAMPLE_RATE : α)
    elapsedTime := 0
    num_harmonics := num_harmonics
    harmonic_weights := scale_weights old.harmonic_weights harmonics num_harmonics velocity_scale }

/-- Function `play_tone`: the harmonic count is clamped, then the first
inactive slot, if there is one, is initialised; `rand()` is called only in that
case.  The diagnostic `printf` is not modelled. -/
def play_tone (RAND_MAX r : Int) (synth : Synth α) (freq duration : α) (harmonics : List α)
    (num_harmonics : Int) (velocity : Int) : Synth α :=
  let num_harmonics := if num_harmonics > MAX_HARMONICS then (MAX_HARMONICS : Int) else num_harmonics
  match first_inactive synth.voices (List.finRange MAX_POLYPHONY) with
  | none => synth
  | some v =>
    let voice := init_voice RAND_MAX r (synth.voices v) freq duration harmonics num_harmonics velocity
    { synth with voices := Function.update synth.voices v voice }

/-- Function `py_play_tone`: the binding passes at most `MAX_HARMONICS` list
items on. -/
def py_play_tone (RAND_MAX r : Int) (synth : Synth α) (freq duration : α) (velocity : Int)
    (harmonic_list : List α) : Synth α :=
  let count : Int := if (harmonic_list.length : Int) > MAX_HARMONICS then (MAX_HARMONICS : Int)
    else harmonic_list.length
  let weights := harmonic_list.take count.toNat
  play_tone RAND_MAX r synth freq duration weights count velocity

/-- Function `audio_callback_synth` for a buffer of `mAudioDataBytesCapacity`
bytes: the new state and the buffer handed to the audio queue.  While a session
is open the buffer is appended to the file (`int16_t` samples, low byte first)
and the frames are counted in `uint32_t`. -/
def audio_callback_synth (sin : α → α) (s : Synth α) (mAudioDataBytesCapacity : Nat) :
    Synth α × List Int :=
  let frames := mAudioDataBytesCapacity / 2
  let r := mix_voices sin s.voices frames
  let samples := (List.range frames).map r.2
  let s := { s with voices := r.1 }
  match s.recording, s.wav_file with
  | true, some file =>
    ({ s with wav_file := some (file.fwrite (samples.flatMap le16s))
              total_samples_written := u32 (s.total_samples_written + frames) }, samples)
  | _, _ => (s, samples)

/-- Function `start_recording`; `fopen_result` is what `fopen(filename, "wb")`
returns (`none` for `NULL`). -/
def start_recording (synth : Synth α) (fopen_result : Option File) : Synth α :=
  if synth.recording then synth
  else
    match fopen_result with
    | none => { synth with wav_file := none }
    | some file =>
      { synth with
        wav_file := some (write_wav_header file SAMPLE_RATE 16 1)
        total_samples_written := 0
        recording := true }

/-- What `fopen(filename, "wb")` returns when it succeeds: an empty file. -/
def fopen_wb : Option File := some ⟨[], 0⟩

/-- Function `stop_recording`: the new state and, when a file was closed, its
bytes.  (A state that records without a file does not arise from the functions
of the source; there only the flag is cleared.) -/
def stop_recording (synth : Synth α) : Synth α × Option (List Nat) :=
  if !synth.recording then (synth, none)
  else
    match synth.wav_file with
    | none => ({ synth with recording := false }, none)
    | some file =>
      ({ synth with recording := false, wav_file := none },
        some (finalize_wav_file file synth.total_samples_written).bytes)

/-! ## Sequences of operations -/

/-- The arguments of one `play_tone` call, with the value `rand()` returns in it. -/
structure ToneRequest (α : Type) where
  r : Int
  freq : α
  duration : α
  harmonics : List α
  num_harmonics : Int
  velocity : Int

/-- One `play_tone` call with the arguments of `q`. -/
def play_request (RAND_MAX : Int) (synth : Synth α) (q : ToneRequest α) : Synth α :=
  play_tone RAND_MAX q.r synth q.freq q.duration q.harmonics q.num_harmonics q.velocity

/-- Consecutive render cycles, one per buffer capacity (in bytes) of the list:
the final state and the buffers in render order. -/
def render_cycles (sin : α → α) : Synth α → List Nat → Synth α × List (List Int)
  | s, [] => (s, [])
  | s, cap :: caps =>
    let r := audio_callback_synth sin s cap
    let rest := render_cycles sin r.1 caps
    (rest.1, r.2 :: rest.2)

/-- States reachable from a pool without active voice by `play_tone` calls with
positive frequency and duration and by render cycles. -/
inductive Reachable (sin : α → α) (RAND_MAX : Int) : Synth α → Prop
  | start (s : Synth α) : (∀ v, (s.voices v).active = false) → Reachable sin RAND_MAX s
  | play (s : Synth α) (q : ToneRequest α) : Reachable sin RAND_MAX s → 0 < q.freq →
      0 < q.duration → Reachable sin RAND_MAX (play_request RAND_MAX s q)
  | render (s : Synth α) (cap : Nat) : Reachable sin RAND_MAX s →
      Reachable sin RAND_MAX (audio_callback_synth sin s cap).1

/-! ## Observations used to state the properties -/

/-- Number of active voices of a pool. -/
def active_count (voices : Voices α) : Nat :=
  (Finset.univ.filter fun v => (voices v).active = true).card

/-- Two pools that agree on which slots are active and on every field of the
active ones (the fields of a free slot carry no meaning). -/
def same_sounding (a b : Voices α) : Prop :=
  ∀ v, (a v).active = (b v).active ∧ ((a v).active = true → a v = b v)

/-- The voice as the frame loop finds it at frame `i` of a cycle, if it gets
that far: `i` phase and time advances after the start of the cycle. -/
def voice_at (voice : Voice α) (i : Nat) : Voice α :=
  advance^[i] voice

/-- The voice is active at the start of the cycle and its time is not up at
frame `i`. -/
def sounding (voice : Voice α) (i : Nat) : Bool :=
  voice.active && decide ((voice_at voice i).elapsedTime < (voice_at voice i).duration)

/-- The value the code leaves in sample `i`: starting from 0, each voice
sounding at frame `i` replaces the running value by `mix_sample` of it and of
the voice's amount, in slot order. -/
def limited_running (sin : α → α) (voices : Voices α) (i : Nat) : Int :=
  (List.finRange MAX_POLYPHONY).foldl
    (fun s v => if sounding (voices v) i then
        mix_sample α s (voice_sample sin (voice_at (voices v) i)) else s) 0

/-- Following the specification: the integer sum `M_i`, over the voices
sounding at frame `i`, of `trunc(env * sum_h weight[h] * sin((h+1) * phase) * 2047)`. -/
def mixed_sum (sin : α → α) (voices : Voices α) (i : Nat) : Int :=
  ((List.finRange MAX_POLYPHONY).map fun v =>
    if sounding (voices v) i then
      trunc (adsr_envelope (voice_at (voices v) i) * harmonic_sum sin (voice_at (voices v) i) * 2047)
    else 0).sum

/-- Following the specification: the limiter applied once, to the mixed sum:
`trunc(soft_clip(M_i / 32767) * 32767)`. -/
def limited_once (sin : α → α) (voices : Voices α) (i : Nat) : Int :=
  trunc (soft_clip ((mixed_sum sin voices i : α) / 32767) * 32767)

/-- Reading a little-endian `uint32_t` field at byte offset `off`. -/
def rd32 (bytes : List Nat) (off : Nat) : Nat :=
  bytes.getD off 0 + 256 * bytes.getD (off + 1) 0 + 65536 * bytes.getD (off + 2) 0 +
    16777216 * bytes.getD (off + 3) 0

/-- Reading a little-endian signed 16-bit sample (two's complement) at byte
offset `off`, as a reader of the `data` sub-chunk does. -/
def rd16s (bytes : List Nat) (off : Nat) : Int :=
  let u := bytes.getD off 0 + 256 * bytes.getD (off + 1) 0
  if u < 32768 then (u : Int) else (u : Int) - 65536

/-- The 44 bytes of a WAV header for 44100 Hz, 16 bits, mono, both sizes 0. -/
def wav_header_44100_16_1 : List Nat :=
  [82, 73, 70, 70, 0, 0, 0, 0, 87, 65, 86, 69, 102, 109, 116, 32, 16, 0, 0, 0, 1, 0, 1, 0,
   68, 172, 0, 0, 136, 88, 1, 0, 2, 0, 16, 0, 100, 97, 116, 97, 0, 0, 0, 0]

/-- The request of the end-to-end example: 440 Hz, 10 ms, the single harmonic
weight 1.0, velocity 127. -/
def end_to_end_note (RAND_MAX r : Int) (s : Synth α) : Synth α :=
  play_tone RAND_MAX r s 440 0.01 [1.0] 1 127

/-- The recorder fields as the functions of the source leave them: a file
handle is held only while the recording flag is set. -/
def recorder_consistent (s : Synth α) : Prop :=
  s.recording = false → s.wav_file = none

/-- A voice in its sustain phase (0.05 s into a 10 s note) with oscillator
phase 1 rad and the single harmonic weight `w`. -/
def sustained_voice (w : α) : Voice α :=
  { active := true
    frequency := 440
    duration := 10
    phase := 1
    phase_increment := 2 * PI * 440 / (SAMPLE_RATE : α)
    elapsedTime := 0.05
    num_harmonics := 1
    harmonic_weights := fun h => if h.val = 0 then w else 0 }

/-- A pool in which slot 0 and slot 1 sound the same loud partial with opposite
signs (weights 200 and -200) and the other fourteen slots are free. -/
def clash_pool (α : Type) [LinearOrderedField α] : Voices α :=
  fun v =>
    if v.val = 0 then sustained_voice 200
    else if v.val = 1 then sustained_voice (-200)
    else ⟨false, 0, 0, 0, 0, 0, 0, fun _ => 0⟩

/-- A pool whose slot 0 holds an active voice whose time is up (1 s into a 1 s
note), followed in slot 1 by a loud voice in its sustain phase; the other
fourteen slots are free. -/
def retire_pool (α : Type) [LinearOrderedField α] : Voices α :=
  fun v =>
    if v.val = 0 then
      { active := true, frequency := 440, duration := 1, phase := 1,
        phase_increment := 2 * PI * 440 / (SAMPLE_RATE : α), elapsedTime := 1,
        num_harmonics := 1, harmonic_weights := fun h => if h.val = 0 then 1 else 0 }
    else if v.val = 1 then sustained_voice 200
    else ⟨false, 0, 0, 0, 0, 0, 0, fun _ => 0⟩

end Render

section EnvelopeLimiter

variable {α : Type} [LinearOrderedField α]

/-- Above the threshold the limiter stays strictly inside `(0.95, 0.975]`. -/
theorem soft_clip_upper (x : α) (hx : CLIP_THRESHOLD < x) :
    CLIP_THRESHOLD < soft_clip x ∧ soft_clip x ≤ 39 / 40 := by
  unfold CLIP_THRESHOLD at hx
  have hy : 0 < x - 0.95 := sub_pos.mpr hx
  have hd : (0 : α) < 1 + ((x - 0.95) / (1 - 0.95)) ^ 2 := by positivity
  simp only [soft_clip, CLIP_THRESHOLD, gt_iff_lt, if_pos hx]
  constructor
  · have : 0 < (x - 0.95) / (1 + ((x - 0.95) / (1 - 0.95)) ^ 2) := div_pos hy hd
    linarith
  · have h2 : (x - 0.95) / (1 + ((x - 0.95) / (1 - 0.95)) ^ 2) ≤ 1 / 40 := by
      rw [div_le_iff₀ hd]
      have h3 : ((x - 0.95) / (1 - 0.95 : α)) = 20 * (x - 0.95) := by norm_num; ring
      rw [h3]
      nlinarith [sq_nonneg (20 * (x - 0.95) - 1)]
    norm_num at h2 ⊢
    linarith

/-- Below the negative threshold the limiter stays inside `[-0.975, -0.95)`. -/
theorem soft_clip_lower (x : α) (hx : x < -CLIP_THRESHOLD) :
    -(39 / 40) ≤ soft_clip x ∧ soft_clip x < -CLIP_THRESHOLD := by
  unfold CLIP_THRESHOLD at hx
  have hy : x + 0.95 < 0 := by linarith
  have hd : (0 : α) < 1 + ((x + 0.95) / (1 - 0.95)) ^ 2 := by positivity
  have hn : ¬ (0.95 : α) < x := by
    intro h
    have : (0 : α) < 0.95 := by norm_num
    linarith
  simp only [soft_clip, CLIP_THRESHOLD, gt_iff_lt, if_neg hn, if_pos hx]
  constructor
  · have h2 : -(1 / 40) ≤ (x + 0.95) / (1 + ((x + 0.95) / (1 - 0.95)) ^ 2) := by
      rw [le_div_iff₀ hd]
      have h3 : ((x + 0.95) / (1 - 0.95 : α)) = 20 * (x + 0.95) := by norm_num; ring
      rw [h3]
      nlinarith [sq_nonneg (20 * (x + 0.95) + 1)]
    norm_num at h2 ⊢
    linarith
  · have : (x + 0.95) / (1 + ((x + 0.95) / (1 - 0.95)) ^ 2) < 0 := div_neg_of_neg_of_pos hy hd
    linarith

/-- Inside the threshold the limiter is the identity. -/
theorem soft_clip_id (x : α) (hx : |x| ≤ CLIP_THRESHOLD) : soft_clip x = x := by
  have h := abs_le.mp hx
  simp only [soft_clip, gt_iff_lt, if_neg (not_lt.mpr h.2), if_neg (not_lt.mpr h.1)]

/-- The limiter never exceeds 0.975 in absolute value. -/
theorem soft_clip_abs_le (x : α) : |soft_clip x| ≤ 39 / 40 := by
  rw [abs_le]
  rcases lt_or_le (CLIP_THRESHOLD : α) x with h | h
  · have := soft_clip_upper x h
    unfold CLIP_THRESHOLD at this
    constructor <;> norm_num at this ⊢ <;> linarith [this.1, this.2]
  · rcases lt_or_le x (-(CLIP_THRESHOLD : α)) with h' | h'
    · have := soft_clip_lower x h'
      unfold CLIP_THRESHOLD at this
      constructor <;> norm_num at this ⊢ <;> linarith [this.1, this.2]
    · rw [soft_clip_id x (abs_le.mpr ⟨h', h⟩)]
      unfold CLIP_THRESHOLD at h h'
      constructor <;> norm_num at h h' ⊢ <;> linarith

/-- C4: for every input `x`, `|soft_clip x| ≤ 1`, and `soft_clip x = x` whenever
`|x|` is at most the clip threshold 0.95. -/
theorem soft_clip_bounded_and_identity (x : α) :
    |soft_clip x| ≤ 1 ∧ (|x| ≤ 0.95 → soft_clip x = x) := by
  refine ⟨le_trans (soft_clip_abs_le x) (by norm_num), fun h => soft_clip_id x ?_⟩
  simpa [CLIP_THRESHOLD] using h

/-- The two parts of C4 at the inputs 3 (outside the threshold) and 1/2 (inside). -/
theorem soft_clip_bounded_and_identity_witness :
    |soft_clip (3 : ℚ)| ≤ 1 ∧ soft_clip (1 / 2 : ℚ) = 1 / 2 :=
  ⟨(soft_clip_bounded_and_identity 3).1,
    (soft_clip_bounded_and_identity (1 / 2)).2 (by norm_num [abs_le])⟩

end EnvelopeLimiter

section Envelope

variable {α : Type} [LinearOrderedField α]

/-- C5: for a voice with duration 1.0 the envelope is 0 at time 0, strictly
increasing over the attack window `[0, 0.001)`, equal to the sustain level 0.2
on the sustain window `[0.041, 0.8)`, and exactly 0 at time 1.0. -/
theorem adsr_envelope_duration_one (voice : Voice α) (t₁ t₂ t₃ : α)
    (h₁ : 0 ≤ t₁) (h₁₂ : t₁ < t₂) (h₂ : t₂ < 0.001) (h₃ : 0.041 ≤ t₃) (h₃' : t₃ < 0.8) :
    adsr_envelope { voice with duration := 1, elapsedTime := 0 } = 0 ∧
    adsr_envelope { voice with duration := 1, elapsedTime := t₁ } <
      adsr_envelope { voice with duration := 1, elapsedTime := t₂ } ∧
    adsr_envelope { voice with duration := 1, elapsedTime := t₃ } = 0.2 ∧
    adsr_envelope { voice with duration := 1, elapsedTime := 1 } = 0 := by
  refine ⟨?_, ?_, ?_, ?_⟩
  · norm_num [adsr_envelope, ATTACK_TIME]
  · have h1 : t₁ < 0.001 := lt_trans h₁₂ h₂
    simp only [adsr_envelope, ATTACK_TIME, if_pos h1, if_pos h₂]
    exact div_lt_div_of_pos_right h₁₂ (by norm_num)
  · have ha : ¬ t₃ < 0.001 := by
      intro h; norm_num at h h₃; linarith
    have hb : ¬ t₃ < 0.001 + 0.04 := by
      intro h; norm_num at h h₃; linarith
    have hc : t₃ < 1 - 0.2 := by
      norm_num at h₃' ⊢; linarith
    simp only [adsr_envelope, ATTACK_TIME, DECAY_TIME, RELEASE_TIME, SUSTAIN_LEVEL, if_neg ha,
      if_neg hb, if_pos hc]
  · norm_num [adsr_envelope, ATTACK_TIME, DECAY_TIME, RELEASE_TIME, SUSTAIN_LEVEL]

/-- C5 at the attack times 1/4000 and 1/2000 and the sustain time 1/2. -/
theorem adsr_envelope_duration_one_witness :
    adsr_envelope (⟨true, 440, 1, 0, 0, 0, 0, fun _ => 0⟩ : Voice ℚ) = 0 ∧
    adsr_envelope (⟨true, 440, 1, 0, 0, 1 / 4000, 0, fun _ => 0⟩ : Voice ℚ) <
      adsr_envelope (⟨true, 440, 1, 0, 0, 1 / 2000, 0, fun _ => 0⟩ : Voice ℚ) ∧
    adsr_envelope (⟨true, 440, 1, 0, 0, 1 / 2, 0, fun _ => 0⟩ : Voice ℚ) = 0.2 ∧
    adsr_envelope (⟨true, 440, 1, 0, 0, 1, 0, fun _ => 0⟩ : Voice ℚ) = 0 :=
  adsr_envelope_duration_one (⟨true, 440, 1, 0, 0, 0, 0, fun _ => 0⟩ : Voice ℚ)
    (1 / 4000) (1 / 2000) (1 / 2) (by norm_num) (by norm_num) (by norm_num) (by norm_num)
    (by norm_num)

end Envelope
section FrameLoop

variable {α : Type} [LinearOrderedField α]

theorem voice_at_zero (voice : Voice α) : voice_at voice 0 = voice := rfl

theorem voice_at_succ (voice : Voice α) (k : Nat) :
    voice_at (advance voice) k = voice_at voice (k + 1) := by
  simp [voice_at, Function.iterate_succ_apply]

theorem voice_at_duration (voice : Voice α) (k : Nat) :
    (voice_at voice k).duration = voice.duration := by
  induction k generalizing voice with
  | zero => rfl
  | succ k ih => rw [← voice_at_succ, ih]; rfl

theorem voice_at_active (voice : Voice α) (k : Nat) :
    (voice_at voice k).active = voice.active := by
  induction k generalizing voice with
  | zero => rfl
  | succ k ih => rw [← voice_at_succ, ih]; rfl

theorem voice_at_elapsedTime (voice : Voice α) (k : Nat) :
    (voice_at voice k).elapsedTime = voice.elapsedTime + (k : α) / (SAMPLE_RATE : α) := by
  induction k generalizing voice with
  | zero => simp [voice_at]
  | succ k ih =>
    rw [← voice_at_succ, ih]
    simp only [advance, Nat.cast_add, Nat.cast_one]
    ring

/-- Time only moves forward within a cycle. -/
theorem voice_at_elapsedTime_mono (voice : Voice α) {k m : Nat} (h : k ≤ m) :
    (voice_at voice k).elapsedTime ≤ (voice_at voice m).elapsedTime := by
  rw [voice_at_elapsedTime, voice_at_elapsedTime]
  have hs : (0 : α) < (SAMPLE_RATE : α) := by norm_num [SAMPLE_RATE]
  have : (k : α) ≤ (m : α) := by exact_mod_cast h
  have := div_le_div_of_nonneg_right this hs.le
  linarith

variable [FloorRing α]

/-- The buffer after the frame loop of one voice: sample `j` is mixed exactly
when frame `j` is run with the voice's time not yet up. -/
theorem frame_loop_samples (sin : α → α) (n i : Nat) (voice : Voice α) (samples : Nat → Int)
    (j : Nat) :
    (frame_loop sin n i voice samples).2 j =
      if i ≤ j ∧ j < i + n ∧ (voice_at voice (j - i)).elapsedTime < voice.duration then
        mix_sample α (samples j) (voice_sample sin (voice_at voice (j - i)))
      else samples j := by
  induction n generalizing i voice samples with
  | zero =>
    rw [if_neg (fun h => by omega)]
    rfl
  | succ n ih =>
    unfold frame_loop
    split_ifs with hexp hc hc
    · exfalso
      have := voice_at_elapsedTime_mono voice (Nat.zero_le (j - i))
      rw [voice_at_zero] at this
      exact absurd (lt_of_le_of_lt (le_trans hexp this) hc.2.2) (lt_irrefl _)
    · rfl
    · rw [ih]
      rcases Nat.eq_or_lt_of_le hc.1 with hij | hij
      · subst hij
        simp [voice_at_zero]
      · have h1 : j - i = (j - (i + 1)) + 1 := by omega
        have h2 : j ≠ i := by omega
        rw [voice_at_succ, ← h1]
        have hd : (advance voice).duration = voice.duration := rfl
        rw [hd, if_pos ⟨hij, by omega, hc.2.2⟩, Function.update_noteq h2]
    · rw [ih]
      have hd : (advance voice).duration = voice.duration := rfl
      rw [hd]
      by_cases hij : i + 1 ≤ j
      · have h1 : j - i = (j - (i + 1)) + 1 := by omega
        have h2 : j ≠ i := by omega
        rw [voice_at_succ, ← h1, Function.update_noteq h2]
        have : ¬ (i + 1 ≤ j ∧ j < i + 1 + n ∧
            (voice_at voice (j - i)).elapsedTime < voice.duration) := by
          intro h
          exact hc ⟨by omega, by omega, h.2.2⟩
        rw [if_neg this]
      · rw [if_neg (fun h => hij h.1)]
        have h2 : j ≠ i := by
          rintro rfl
          apply hc
          refine ⟨le_refl _, by omega, ?_⟩
          simpa [voice_at_zero] using not_le.mp hexp
        rw [Function.update_noteq h2]

/-- The voice the frame loop returns does not depend on the buffer. -/
theorem frame_loop_voice_indep (sin : α → α) (n i i' : Nat) (voice : Voice α)
    (samples samples' : Nat → Int) :
    (frame_loop sin n i voice samples).1 = (frame_loop sin n i' voice samples').1 := by
  induction n generalizing i i' voice samples samples' with
  | zero => rfl
  | succ n ih =>
    unfold frame_loop
    split_ifs with hexp
    · rfl
    · exact ih _ _ _ _ _

/-- A voice whose time is up at some frame of the cycle is retired by it. -/
theorem frame_loop_retires (sin : α → α) (n i k : Nat) (voice : Voice α) (samples : Nat → Int)
    (hk : k < n) (hexp : voice.duration ≤ (voice_at voice k).elapsedTime) :
    (frame_loop sin n i voice samples).1.active = false := by
  induction n generalizing i k voice samples with
  | zero => omega
  | succ n ih =>
    unfold frame_loop
    split_ifs with h0
    · rfl
    · cases k with
      | zero => exact absurd hexp h0
      | succ k =>
        apply ih (i + 1) k
        · omega
        · rw [voice_at_succ]; exact hexp

/-- A voice whose time is not up at any frame of the cycle gets through all of
them. -/
theorem frame_loop_runs (sin : α → α) (n i : Nat) (voice : Voice α) (samples : Nat → Int)
    (h : ∀ k, k < n → (voice_at voice k).elapsedTime < voice.duration) :
    (frame_loop sin n i voice samples).1 = voice_at voice n := by
  induction n generalizing i voice samples with
  | zero => rfl
  | succ n ih =>
    unfold frame_loop
    have h0 : ¬ voice.elapsedTime ≥ voice.duration := not_le.mpr (h 0 (Nat.succ_pos n))
    rw [if_neg h0, ih, voice_at_succ]
    intro k hk
    rw [voice_at_succ]
    exact h (k + 1) (by omega)

/-- The frame loop keeps an active voice less than one sample period past its
duration. -/
theorem frame_loop_overshoot (sin : α → α) (n i : Nat) (voice : Voice α) (samples : Nat → Int)
    (h : voice.active = true → voice.elapsedTime < voice.duration + 1 / (SAMPLE_RATE : α)) :
    (frame_loop sin n i voice samples).1.active = true →
      (frame_loop sin n i voice samples).1.elapsedTime <
        (frame_loop sin n i voice samples).1.duration + 1 / (SAMPLE_RATE : α) := by
  induction n generalizing i voice samples with
  | zero => exact h
  | succ n ih =>
    unfold frame_loop
    split_ifs with h0
    · intro hf; exact absurd hf (by simp)
    · apply ih
      intro _
      have : voice.elapsedTime < voice.duration := not_le.mp h0
      simp only [advance]
      linarith

end FrameLoop
section VoiceLoop

variable {α : Type} [LinearOrderedField α] [FloorRing α]

/-- What a render cycle makes of one voice: an inactive voice is left alone,
an active one goes through the frame loop. -/
theorem voice_step_voice_self (sin : α → α) (frames : Nat) (st : Voices α × (Nat → Int))
    (v : Fin MAX_POLYPHONY) :
    (voice_step sin frames st v).1 v =
      if (st.1 v).active then (frame_loop sin frames 0 (st.1 v) (fun _ => 0)).1 else st.1 v := by
  unfold voice_step
  cases h : (st.1 v).active
  · simp
  · simp only [Bool.not_true, Bool.false_eq_true, if_false, Function.update_same, if_true]
    exact frame_loop_voice_indep sin frames 0 0 _ _ _

theorem voice_step_voice_other (sin : α → α) (frames : Nat) (st : Voices α × (Nat → Int))
    (v u : Fin MAX_POLYPHONY) (h : u ≠ v) :
    (voice_step sin frames st v).1 u = st.1 u := by
  unfold voice_step
  split_ifs
  · rfl
  · exact Function.update_noteq h _ _

theorem voice_step_samples (sin : α → α) (frames : Nat) (st : Voices α × (Nat → Int))
    (v : Fin MAX_POLYPHONY) (j : Nat) :
    (voice_step sin frames st v).2 j =
      if j < frames ∧ sounding (st.1 v) j = true then
        mix_sample α (st.2 j) (voice_sample sin (voice_at (st.1 v) j))
      else st.2 j := by
  unfold voice_step
  cases h : (st.1 v).active
  · simp [sounding, h]
  · simp only [Bool.not_true, Bool.false_eq_true, if_false]
    rw [frame_loop_samples]
    simp [sounding, h, voice_at_duration]

/-- The pool after the voice loop over the distinct slots `l`. -/
theorem voice_loop_voices (sin : α → α) (frames : Nat) (l : List (Fin MAX_POLYPHONY))
    (hl : l.Nodup) (st : Voices α × (Nat → Int)) (v : Fin MAX_POLYPHONY) :
    (l.foldl (voice_step sin frames) st).1 v =
      if v ∈ l ∧ (st.1 v).active = true then (frame_loop sin frames 0 (st.1 v) (fun _ => 0)).1
      else st.1 v := by
  induction l generalizing st with
  | nil => simp
  | cons u l ih =>
    rw [List.foldl_cons, ih (List.nodup_cons.mp hl).2]
    have hu : u ∉ l := (List.nodup_cons.mp hl).1
    by_cases hvu : v = u
    · subst hvu
      rw [if_neg (fun h => hu h.1), voice_step_voice_self]
      simp
    · rw [voice_step_voice_other sin frames st u v hvu]
      simp [hvu]

/-- The buffer after the voice loop over the distinct slots `l`. -/
theorem voice_loop_samples (sin : α → α) (frames : Nat) (l : List (Fin MAX_POLYPHONY))
    (hl : l.Nodup) (st : Voices α × (Nat → Int)) (j : Nat) :
    (l.foldl (voice_step sin frames) st).2 j =
      l.foldl (fun s v => if j < frames ∧ sounding (st.1 v) j = true then
        mix_sample α s (voice_sample sin (voice_at (st.1 v) j)) else s) (st.2 j) := by
  induction l generalizing st with
  | nil => rfl
  | cons u l ih =>
    rw [List.foldl_cons, List.foldl_cons, ih (List.nodup_cons.mp hl).2, voice_step_samples]
    have hu : u ∉ l := (List.nodup_cons.mp hl).1
    apply List.foldl_ext
    intro s v hv
    have hvu : v ≠ u := fun h => hu (h ▸ hv)
    rw [voice_step_voice_other sin frames st u v hvu]

/-- The pool after one cycle. -/
theorem mix_voices_voices (sin : α → α) (voices : Voices α) (frames : Nat)
    (v : Fin MAX_POLYPHONY) :
    (mix_voices sin voices frames).1 v =
      if (voices v).active = true then (frame_loop sin frames 0 (voices v) (fun _ => 0)).1
      else voices v := by
  unfold mix_voices
  rw [voice_loop_voices sin frames _ (List.nodup_finRange _)]
  simp

/-- The buffer after one cycle. -/
theorem mix_voices_samples (sin : α → α) (voices : Voices α) (frames : Nat) (j : Nat)
    (hj : j < frames) :
    (mix_voices sin voices frames).2 j = limited_running sin voices j := by
  unfold mix_voices limited_running
  rw [voice_loop_samples sin frames _ (List.nodup_finRange _)]
  simp [hj]

/-- The buffer `audio_callback_synth` hands out. -/
theorem audio_callback_synth_samples (sin : α → α) (s : Synth α) (cap : Nat) :
    (audio_callback_synth sin s cap).2 =
      (List.range (cap / 2)).map (limited_running sin s.voices) := by
  have h : (audio_callback_synth sin s cap).2 =
      (List.range (cap / 2)).map (mix_voices sin s.voices (cap / 2)).2 := by
    rcases s with ⟨vs, wf, t, rec⟩
    cases rec <;> cases wf <;> rfl
  rw [h]
  apply List.map_congr_left
  intro j hj
  exact mix_voices_samples sin s.voices (cap / 2) j (List.mem_range.mp hj)

/-- The pool `audio_callback_synth` leaves. -/
theorem audio_callback_synth_voices (sin : α → α) (s : Synth α) (cap : Nat) :
    (audio_callback_synth sin s cap).1.voices = (mix_voices sin s.voices (cap / 2)).1 := by
  rcases s with ⟨vs, wf, t, rec⟩
  cases rec <;> cases wf <;> rfl

end VoiceLoop
section Scan

variable {α : Type}

theorem first_inactive_eq_none (voices : Voices α) (l : List (Fin MAX_POLYPHONY)) :
    first_inactive voices l = none ↔ ∀ v ∈ l, (voices v).active = true := by
  induction l with
  | nil => simp [first_inactive]
  | cons u l ih =>
    unfold first_inactive
    cases h : (voices u).active <;> simp [h, ih]

theorem first_inactive_eq_some (voices : Voices α) (l : List (Fin MAX_POLYPHONY))
    (v : Fin MAX_POLYPHONY) (h : first_inactive voices l = some v) :
    (voices v).active = false ∧ v ∈ l := by
  induction l with
  | nil => simp [first_inactive] at h
  | cons u l ih =>
    unfold first_inactive at h
    cases hu : (voices u).active
    · simp only [hu, Bool.not_false, if_true, Option.some.injEq] at h
      subst h
      exact ⟨hu, List.mem_cons_self _ _⟩
    · simp only [hu, Bool.not_true, Bool.false_eq_true, if_false] at h
      exact ⟨(ih h).1, List.mem_cons_of_mem _ (ih h).2⟩

end Scan

section Allocation

variable {α : Type} [LinearOrderedField α]

/-- With every slot taken `play_tone` changes nothing. -/
theorem play_tone_full (RAND_MAX r : Int) (synth : Synth α) (freq duration : α)
    (harmonics : List α) (num_harmonics velocity : Int)
    (h : ∀ v, (synth.voices v).active = true) :
    play_tone RAND_MAX r synth freq duration harmonics num_harmonics velocity = synth := by
  have : first_inactive synth.voices (List.finRange MAX_POLYPHONY) = none :=
    (first_inactive_eq_none _ _).mpr (fun v _ => h v)
  simp only [play_tone, this]

/-- With a free slot `play_tone` initialises one inactive slot and changes
nothing else. -/
theorem play_tone_alloc (RAND_MAX r : Int) (synth : Synth α) (freq duration : α)
    (harmonics : List α) (num_harmonics velocity : Int) (u : Fin MAX_POLYPHONY)
    (hu : (synth.voices u).active = false) :
    ∃ v : Fin MAX_POLYPHONY,
      first_inactive synth.voices (List.finRange MAX_POLYPHONY) = some v ∧
      (synth.voices v).active = false ∧
      play_tone RAND_MAX r synth freq duration harmonics num_harmonics velocity =
        { synth with voices := (Function.update synth.voices v
            (init_voice RAND_MAX r (synth.voices v) freq duration harmonics
              (if num_harmonics > MAX_HARMONICS then (MAX_HARMONICS : Int) else num_harmonics)
              velocity)) } := by
  cases hf : first_inactive synth.voices (List.finRange MAX_POLYPHONY) with
  | none =>
    have := (first_inactive_eq_none _ _).mp hf u (List.mem_finRange u)
    rw [hu] at this
    exact absurd this (by simp)
  | some v =>
    refine ⟨v, rfl, (first_inactive_eq_some _ _ _ hf).1, ?_⟩
    simp only [play_tone, hf]

end Allocation

section Counting

variable {α : Type}

theorem active_count_le (voices : Voices α) : active_count voices ≤ 16 := by
  unfold active_count
  exact le_trans (Finset.card_le_univ _) (by simp [MAX_POLYPHONY])

theorem active_count_eq_iff (voices : Voices α) :
    active_count voices = 16 ↔ ∀ v, (voices v).active = true := by
  unfold active_count
  have h16 : (16 : Nat) = Fintype.card (Fin MAX_POLYPHONY) := by simp [MAX_POLYPHONY]
  rw [h16, Finset.card_eq_iff_eq_univ, Finset.filter_eq_self]
  simp

theorem active_count_update (voices : Voices α) (v : Fin MAX_POLYPHONY) (voice : Voice α)
    (hv : (voices v).active = false) (hvoice : voice.active = true) :
    active_count (Function.update voices v voice) = active_count voices + 1 := by
  unfold active_count
  have : (Finset.univ.filter fun u => ((Function.update voices v voice) u).active = true) =
      insert v (Finset.univ.filter fun u => (voices u).active = true) := by
    ext u
    by_cases huv : u = v
    · subst huv; simp [hvoice]
    · simp [Function.update_noteq huv, huv]
  rw [this, Finset.card_insert_of_not_mem]
  simp [hv]

end Counting

section Polyphony

variable {α : Type} [LinearOrderedField α]

/-- Each `play_tone` call raises the number of active voices by one, up to 16. -/
theorem active_count_play_request (RAND_MAX : Int) (s : Synth α) (q : ToneRequest α) :
    active_count (play_request RAND_MAX s q).voices = min (active_count s.voices + 1) 16 := by
  by_cases hall : ∀ v, (s.voices v).active = true
  · unfold play_request
    rw [play_tone_full _ _ _ _ _ _ _ _ hall, (active_count_eq_iff _).mpr hall]
    rfl
  · push_neg at hall
    obtain ⟨u, hu⟩ := hall
    have hu' : (s.voices u).active = false := by simpa using hu
    obtain ⟨v, -, hv, heq⟩ :=
      play_tone_alloc RAND_MAX q.r s q.freq q.duration q.harmonics q.num_harmonics q.velocity u hu'
    unfold play_request
    rw [heq]
    simp only
    rw [active_count_update _ _ _ hv rfl]
    have hlt : active_count s.voices < 16 := by
      rcases Nat.lt_or_ge (active_count s.voices) 16 with h | h
      · exact h
      · have := (active_count_eq_iff _).mp (le_antisymm (active_count_le _) h) u
        rw [hu'] at this
        exact absurd this (by simp)
    omega

theorem active_count_play_requests (RAND_MAX : Int) (calls : List (ToneRequest α))
    (s : Synth α) :
    active_count (calls.foldl (play_request RAND_MAX) s).voices =
      min (active_count s.voices + calls.length) 16 := by
  induction calls generalizing s with
  | nil => simp [active_count_le]
  | cons q calls ih =>
    rw [List.foldl_cons, ih, active_count_play_request, List.length_cons]
    omega

/-- C1: in a pool whose 16 voices are all inactive, after any 17 consecutive
`play_tone` calls exactly 16 voices are active, and the 17th call changes
nothing: the state after it is the state after the first 16 calls. -/
theorem play_tone_polyphony_bound (RAND_MAX : Int) (s : Synth α)
    (h : ∀ v, (s.voices v).active = false) (calls : List (ToneRequest α))
    (hlen : calls.length = 17) :
    active_count (calls.foldl (play_request RAND_MAX) s).voices = 16 ∧
    calls.foldl (play_request RAND_MAX) s =
      (calls.take 16).foldl (play_request RAND_MAX) s := by
  have h0 : active_count s.voices = 0 := by
    unfold active_count
    simp [h]
  refine ⟨by rw [active_count_play_requests, h0, hlen]; rfl, ?_⟩
  have h16 : active_count ((calls.take 16).foldl (play_request RAND_MAX) s).voices = 16 := by
    rw [active_count_play_requests, h0, List.length_take, hlen]
    rfl
  have hall := (active_count_eq_iff _).mp h16
  conv_lhs => rw [← List.take_append_drop 16 calls]
  rw [List.foldl_append]
  generalize (calls.take 16).foldl (play_request RAND_MAX) s = s16 at hall ⊢
  have hd : (calls.drop 16).length = 1 := by simp [hlen]
  match hq : calls.drop 16, hd with
  | [q], _ =>
    simp only [List.foldl_cons, List.foldl_nil]
    exact play_tone_full _ _ _ _ _ _ _ _ hall

/-- C1 for seventeen identical requests on the start-up state. -/
theorem play_tone_polyphony_bound_witness :
    active_count ((List.replicate 17 (⟨0, 440, 1, [1], 1, 127⟩ : ToneRequest ℚ)).foldl
      (play_request 2147483647) (Synth.init ℚ)).voices = 16 ∧
    (List.replicate 17 (⟨0, 440, 1, [1], 1, 127⟩ : ToneRequest ℚ)).foldl
      (play_request 2147483647) (Synth.init ℚ) =
    ((List.replicate 17 (⟨0, 440, 1, [1], 1, 127⟩ : ToneRequest ℚ)).take 16).foldl
      (play_request 2147483647) (Synth.init ℚ) :=
  play_tone_polyphony_bound 2147483647 (Synth.init ℚ) (fun _ => rfl) _ (by simp)

end Polyphony
section Sounding

variable {α : Type} [LinearOrderedField α]

/-- An inactive voice sounds at no frame. -/
theorem sounding_of_inactive (voice : Voice α) (j : Nat) (h : voice.active = false) :
    sounding voice j = false := by
  simp [sounding, h]

/-- A voice whose time is up at frame `i` sounds at no later frame. -/
theorem sounding_of_expired (voice : Voice α) (i j : Nat) (hij : i ≤ j)
    (h : voice.duration ≤ (voice_at voice i).elapsedTime) :
    sounding voice j = false := by
  have := voice_at_elapsedTime_mono voice hij
  simp only [sounding, voice_at_duration, Bool.and_eq_false_imp, decide_eq_false_iff_not, not_lt]
  intro _
  exact le_trans h this

end Sounding

section CycleCongruence

variable {α : Type} [LinearOrderedField α] [FloorRing α]

/-- Sample `j` of a cycle only depends on the voices sounding at frame `j`. -/
theorem limited_running_congr (sin : α → α) (a b : Voices α) (j : Nat)
    (h : ∀ v, sounding (a v) j = sounding (b v) j ∧ (sounding (a v) j = true → a v = b v)) :
    limited_running sin a j = limited_running sin b j := by
  unfold limited_running
  apply List.foldl_ext
  intro s v _
  cases hs : sounding (a v) j
  · rw [← (h v).1, hs]
    simp
  · rw [← (h v).1, hs, (h v).2 hs]

/-- The recorder fields after a cycle are determined by the recorder fields
before it and by the buffer. -/
theorem audio_callback_synth_recorder (sin : α → α) (s : Synth α) (cap : Nat) :
    (audio_callback_synth sin s cap).1.recording = s.recording ∧
    (audio_callback_synth sin s cap).1.wav_file =
      (match s.recording, s.wav_file with
        | true, some file =>
          some (file.fwrite ((audio_callback_synth sin s cap).2.flatMap le16s))
        | _, _ => s.wav_file) ∧
    (audio_callback_synth sin s cap).1.total_samples_written =
      (match s.recording, s.wav_file with
        | true, some _ => u32 (s.total_samples_written + cap / 2)
        | _, _ => s.total_samples_written) := by
  rcases s with ⟨vs, wf, t, rec⟩
  cases rec <;> cases wf <;> exact ⟨rfl, rfl, rfl⟩

/-- Two states with the same recorder fields and the same sounding voices give
the same buffer and the same recorder fields after a cycle. -/
theorem audio_callback_synth_congr (sin : α → α) (s₁ s₂ : Synth α) (cap : Nat)
    (hw : s₁.wav_file = s₂.wav_file) (ht : s₁.total_samples_written = s₂.total_samples_written)
    (hr : s₁.recording = s₂.recording)
    (h : ∀ j v, sounding (s₁.voices v) j = sounding (s₂.voices v) j ∧
      (sounding (s₁.voices v) j = true → s₁.voices v = s₂.voices v)) :
    (audio_callback_synth sin s₁ cap).2 = (audio_callback_synth sin s₂ cap).2 ∧
    (audio_callback_synth sin s₁ cap).1.wav_file = (audio_callback_synth sin s₂ cap).1.wav_file ∧
    (audio_callback_synth sin s₁ cap).1.total_samples_written =
      (audio_callback_synth sin s₂ cap).1.total_samples_written ∧
    (audio_callback_synth sin s₁ cap).1.recording = (audio_callback_synth sin s₂ cap).1.recording := by
  have hs : (audio_callback_synth sin s₁ cap).2 = (audio_callback_synth sin s₂ cap).2 := by
    rw [audio_callback_synth_samples, audio_callback_synth_samples]
    apply List.map_congr_left
    intro j _
    exact limited_running_congr sin _ _ j (h j)
  obtain ⟨r1, w1, t1⟩ := audio_callback_synth_recorder sin s₁ cap
  obtain ⟨r2, w2, t2⟩ := audio_callback_synth_recorder sin s₂ cap
  refine ⟨hs, ?_, ?_, ?_⟩
  · rw [w1, w2, hs, hw, hr]
  · rw [t1, t2, hw, hr, ht]
  · rw [r1, r2, hr]

end CycleCongruence

section Rejection

variable {α : Type} [LinearOrderedField α] [FloorRing α]

/-- C2, as stated, fails: on the start-up state a request with frequency -1 and
duration -1 is not ignored, it changes the pool. -/
theorem play_tone_nonpositive_changes_pool :
    (play_tone 2147483647 0 (Synth.init ℚ) (-1) (-1) [1] 1 127).voices ≠
      (Synth.init ℚ).voices := by
  intro h
  obtain ⟨v, -, hv, heq⟩ :=
    play_tone_alloc 2147483647 0 (Synth.init ℚ) (-1) (-1) [1] 1 127 ⟨0, by decide⟩ rfl
  rw [heq] at h
  have := congrArg Voice.active (congrFun h v)
  simp [init_voice, hv] at this

/-- A request whose duration is `≤ 0` has no audible effect: with a free slot
it takes it, and the next render cycle of at least one frame gives the same
buffer, the same recorder state and the same sounding voices as without the
request. -/
theorem play_tone_duration_nonpositive (sin : α → α) (RAND_MAX r : Int) (s : Synth α)
    (freq duration : α) (harmonics : List α) (num_harmonics velocity : Int) (cap : Nat)
    (hd : duration ≤ 0) (hcap : 2 ≤ cap) :
    ((∃ u, (s.voices u).active = false) →
      active_count (play_tone RAND_MAX r s freq duration harmonics num_harmonics velocity).voices =
        active_count s.voices + 1) ∧
    (audio_callback_synth sin
        (play_tone RAND_MAX r s freq duration harmonics num_harmonics velocity) cap).2 =
      (audio_callback_synth sin s cap).2 ∧
    same_sounding
      (audio_callback_synth sin
        (play_tone RAND_MAX r s freq duration harmonics num_harmonics velocity) cap).1.voices
      (audio_callback_synth sin s cap).1.voices ∧
    (audio_callback_synth sin
        (play_tone RAND_MAX r s freq duration harmonics num_harmonics velocity) cap).1.wav_file =
      (audio_callback_synth sin s cap).1.wav_file ∧
    (audio_callback_synth sin
        (play_tone RAND_MAX r s freq duration harmonics num_harmonics velocity)
        cap).1.total_samples_written =
      (audio_callback_synth sin s cap).1.total_samples_written ∧
    (audio_callback_synth sin
        (play_tone RAND_MAX r s freq duration harmonics num_harmonics velocity) cap).1.recording =
      (audio_callback_synth sin s cap).1.recording := by
  by_cases hall : ∀ v, (s.voices v).active = true
  · rw [play_tone_full _ _ _ _ _ _ _ _ hall]
    refine ⟨?_, rfl, fun v => ⟨rfl, fun _ => rfl⟩, rfl, rfl, rfl⟩
    rintro ⟨u, hu⟩
    rw [hall u] at hu
    exact absurd hu (by simp)
  · push_neg at hall
    obtain ⟨u, hu⟩ := hall
    have hu' : (s.voices u).active = false := by simpa using hu
    obtain ⟨v, -, hv, heq⟩ :=
      play_tone_alloc RAND_MAX r s freq duration harmonics num_harmonics velocity u hu'
    rw [heq]
    set nv := init_voice RAND_MAX r (s.voices v) freq duration harmonics
      (if num_harmonics > MAX_HARMONICS then (MAX_HARMONICS : Int) else num_harmonics) velocity
      with hnv
    have hexp : nv.duration ≤ (voice_at nv 0).elapsedTime := by
      show duration ≤ 0
      exact hd
    have hsound : ∀ j w, sounding (Function.update s.voices v nv w) j = sounding (s.voices w) j ∧
        (sounding (Function.update s.voices v nv w) j = true →
          Function.update s.voices v nv w = s.voices w) := by
      intro j w
      by_cases hw : w = v
      · subst hw
        rw [Function.update_same, sounding_of_expired nv 0 j (Nat.zero_le j) hexp,
          sounding_of_inactive _ j hv]
        simp
      · rw [Function.update_noteq hw]
        exact ⟨rfl, fun _ => rfl⟩
    obtain ⟨c1, c2, c3, c4⟩ := audio_callback_synth_congr sin
      { s with voices := Function.update s.voices v nv } s cap rfl rfl rfl hsound
    refine ⟨fun _ => active_count_update _ _ _ hv rfl, c1, ?_, c2, c3, c4⟩
    intro w
    rw [audio_callback_synth_voices, audio_callback_synth_voices, mix_voices_voices,
      mix_voices_voices]
    by_cases hw : w = v
    · subst hw
      have hret := frame_loop_retires sin (cap / 2) 0 0 nv (fun _ => 0) (by omega) hexp
      have hna : nv.active = true := rfl
      simp only [Function.update_same]
      rw [if_pos hna, if_neg (by simp [hv]), hret, hv]
      simp
    · simp [Function.update_noteq hw]

end Rejection
section Integers

theorem wrap_signed_16_id (x : Int) (h₁ : -32768 ≤ x) (h₂ : x ≤ 32767) :
    wrap_signed 16 x = x := by
  unfold wrap_signed
  norm_num
  omega

theorem wrap_signed_32_id (x : Int) (h₁ : -2147483648 ≤ x) (h₂ : x ≤ 2147483647) :
    wrap_signed 32 x = x := by
  unfold wrap_signed
  norm_num
  omega

variable {α : Type} [LinearOrderedField α] [FloorRing α]

theorem trunc_le (x : α) (n : Int) (h : x ≤ (n : α)) : trunc x ≤ n := by
  unfold trunc
  split_ifs
  · exact Int.cast_le.mp (le_trans (Int.floor_le x) h)
  · exact Int.ceil_le.mpr h

theorem le_trunc (x : α) (n : Int) (h : (n : α) ≤ x) : n ≤ trunc x := by
  unfold trunc
  split_ifs
  · exact Int.le_floor.mpr h
  · exact Int.cast_le.mp (le_trans h (Int.le_ceil x))

theorem to_int32_of_fits (x : α) (h₁ : -2147483648 ≤ trunc x) (h₂ : trunc x ≤ 2147483647) :
    to_int32 x = trunc x := by
  unfold to_int32
  rw [if_pos ⟨h₁, h₂⟩]

theorem trunc_neg (x : α) : trunc (-x) = -trunc x := by
  unfold trunc
  rcases lt_trichotomy x 0 with h | h | h
  · rw [if_pos (by linarith), if_neg (by linarith), Int.floor_neg]
  · subst h; simp
  · rw [if_neg (by linarith), if_pos (by linarith), Int.ceil_neg]

theorem trunc_zero : trunc (0 : α) = 0 := by
  simp [trunc]

/-- The value stored back into the buffer is the truncated limiter output and
lies within `[-31948, 31948]`. -/
theorem mix_sample_eq (old add : Int) :
    mix_sample α old add =
      trunc (soft_clip ((wrap_signed 32 (old + add) : α) / (MAX_VOLUME : α)) * (MAX_VOLUME : α)) ∧
    -31948 ≤ mix_sample α old add ∧ mix_sample α old add ≤ 31948 := by
  have hb := abs_le.mp (soft_clip_abs_le ((wrap_signed 32 (old + add) : α) / (MAX_VOLUME : α)))
  set y := soft_clip ((wrap_signed 32 (old + add) : α) / (MAX_VOLUME : α)) with hy
  have h1 : trunc (y * (MAX_VOLUME : α)) ≤ 31948 := by
    apply trunc_le
    have : y * (MAX_VOLUME : α) ≤ 39 / 40 * 32767 := by
      simp only [MAX_VOLUME]; push_cast; nlinarith [hb.2]
    refine le_trans this ?_
    norm_num
  have h2 : -31948 ≤ trunc (y * (MAX_VOLUME : α)) := by
    apply le_trunc
    have : -(39 / 40) * 32767 ≤ y * (MAX_VOLUME : α) := by
      simp only [MAX_VOLUME]; push_cast; nlinarith [hb.1]
    refine le_trans ?_ this
    norm_num
  have h3 : mix_sample α old add = trunc (y * (MAX_VOLUME : α)) := by
    simp only [mix_sample, to_int16, ← hy]
    exact wrap_signed_16_id _ (by omega) (by omega)
  rw [h3]
  exact ⟨rfl, h2, h1⟩

end Integers
section Clash

variable {α : Type} [LinearOrderedField α]

theorem finRange_polyphony :
    List.finRange MAX_POLYPHONY =
      [⟨0, by decide⟩, ⟨1, by decide⟩, ⟨2, by decide⟩, ⟨3, by decide⟩, ⟨4, by decide⟩,
       ⟨5, by decide⟩, ⟨6, by decide⟩, ⟨7, by decide⟩, ⟨8, by decide⟩, ⟨9, by decide⟩,
       ⟨10, by decide⟩, ⟨11, by decide⟩, ⟨12, by decide⟩, ⟨13, by decide⟩, ⟨14, by decide⟩,
       ⟨15, by decide⟩] := by
  decide

theorem sustained_voice_envelope (w : α) : adsr_envelope (sustained_voice w) = 0.2 := by
  norm_num [adsr_envelope, sustained_voice, ATTACK_TIME, DECAY_TIME, RELEASE_TIME, SUSTAIN_LEVEL]

theorem sustained_voice_harmonic_sum (sin : α → α) (w : α) :
    harmonic_sum sin (sustained_voice w) = w * sin 1 := by
  simp [harmonic_sum, sustained_voice, Voice.weight, MAX_HARMONICS, List.range_succ]

theorem sustained_voice_sounding (w : α) :
    (sustained_voice w).active = true ∧
      (sustained_voice w).elapsedTime < (sustained_voice w).duration := by
  refine ⟨rfl, ?_⟩
  simp only [sustained_voice]
  norm_num

variable [FloorRing α]

theorem clash_pool_running (sin : α → α) :
    limited_running sin (clash_pool α) 0 =
      mix_sample α (mix_sample α 0 (voice_sample sin (sustained_voice 200)))
        (voice_sample sin (sustained_voice (-200))) := by
  unfold limited_running
  rw [finRange_polyphony]
  simp [clash_pool, sustained_voice_sounding, voice_at, sounding]

theorem clash_pool_mixed_sum (sin : α → α) :
    mixed_sum sin (clash_pool α) 0 =
      trunc ((0.2 : α) * (200 * sin 1) * 2047) + trunc (-((0.2 : α) * (200 * sin 1) * 2047)) := by
  unfold mixed_sum
  rw [finRange_polyphony]
  simp [clash_pool, sustained_voice_sounding, voice_at, sounding, sustained_voice_envelope,
    sustained_voice_harmonic_sum]

end Clash

section RunningLimiter

variable {α : Type} [LinearOrderedField α]

/-- Well below the negative threshold region the limiter output stays negative:
an input of at most -0.89 gives an output of at most -0.89. -/
theorem soft_clip_le_neg (z : α) (hz : z ≤ -(89 / 100)) : soft_clip z ≤ -(89 / 100) := by
  rcases lt_or_le z (-(CLIP_THRESHOLD : α)) with h | h
  · have := (soft_clip_lower z h).2
    unfold CLIP_THRESHOLD at this
    norm_num at this ⊢
    linarith
  · rw [soft_clip_id z]
    · exact hz
    · rw [abs_le]
      refine ⟨h, ?_⟩
      unfold CLIP_THRESHOLD
      norm_num at hz ⊢
      linarith

variable [FloorRing α]

/-- In the clash pool the one-pass limiter of the specification gives 0. -/
theorem clash_pool_limited_once (sin : α → α) : limited_once sin (clash_pool α) 0 = 0 := by
  unfold limited_once
  rw [clash_pool_mixed_sum, trunc_neg, add_neg_cancel]
  have : soft_clip ((((0 : Int) : α)) / 32767) = 0 := by
    rw [soft_clip_id] <;> simp [CLIP_THRESHOLD]
    norm_num
  rw [this]
  simp [trunc]

/-- C3, as stated, fails: with two voices sounding the same partial with
opposite signs the integer sum is 0 and so is the once-limited value, but the
cycle leaves a nonzero sample, the limiter having been applied after the first
voice already. -/
theorem limiter_applied_per_voice :
    (audio_callback_synth Real.sin (⟨clash_pool ℝ, none, 0, false⟩ : Synth ℝ) 2).2 ≠
      [limited_once Real.sin (clash_pool ℝ) 0] := by
  rw [audio_callback_synth_samples, clash_pool_limited_once]
  have hr : List.range (2 / 2) = [0] := by decide
  rw [hr]
  simp only [List.map_cons, List.map_nil, ne_eq, List.cons.injEq, and_true]
  rw [clash_pool_running]
  have hs1 : (3 / 4 : ℝ) < Real.sin 1 := by
    have := @Real.sin_gt_sub_cube 1 one_pos le_rfl
    norm_num at this
    exact this
  have hs2 : Real.sin 1 ≤ 1 := Real.sin_le_one 1
  have hk : (((MAX_VOLUME / MAX_POLYPHONY : Nat) : ℝ)) = 2047 := by
    norm_num [MAX_VOLUME, MAX_POLYPHONY]
  set X : ℝ := 200 * Real.sin 1 * 0.2 * 2047 with hX
  have hX1 : ((61410 : Int) : ℝ) ≤ X := by
    rw [hX]; push_cast; nlinarith
  have hX2 : X ≤ ((81880 : Int) : ℝ) := by
    rw [hX]; push_cast; nlinarith
  have hT1 : 61410 ≤ trunc X := le_trunc X _ hX1
  have hT2 : trunc X ≤ 81880 := trunc_le X _ hX2
  have hc1 : voice_sample Real.sin (sustained_voice (200 : ℝ)) = trunc X := by
    simp only [voice_sample, sustained_voice_harmonic_sum, sustained_voice_envelope, hk]
    show to_int32 X = trunc X
    exact to_int32_of_fits X (by omega) (by omega)
  have hc2 : voice_sample Real.sin (sustained_voice (-200 : ℝ)) = -trunc X := by
    simp only [voice_sample, sustained_voice_harmonic_sum, sustained_voice_envelope, hk]
    have : (-200 * Real.sin 1 * 0.2 * 2047 : ℝ) = -X := by rw [hX]; ring
    rw [this, to_int32_of_fits (-X) (by rw [trunc_neg]; omega) (by rw [trunc_neg]; omega),
      trunc_neg]
  rw [hc1, hc2]
  obtain ⟨-, hm1, hm2⟩ := @mix_sample_eq ℝ _ _ 0 (trunc X)
  set m := mix_sample ℝ 0 (trunc X) with hm
  obtain ⟨he, -, -⟩ := @mix_sample_eq ℝ _ _ m (-trunc X)
  rw [he, wrap_signed_32_id _ (by omega) (by omega)]
  have hz : ((m + -trunc X : Int) : ℝ) / (MAX_VOLUME : ℝ) ≤ -(89 / 100) := by
    have : ((m + -trunc X : Int) : ℝ) ≤ ((-29462 : Int) : ℝ) := by
      exact_mod_cast (by omega : m + -trunc X ≤ -29462)
    rw [div_le_iff₀ (by norm_num [MAX_VOLUME])]
    simp only [MAX_VOLUME]
    push_cast at this ⊢
    linarith
  have hy := soft_clip_le_neg _ hz
  have : trunc (soft_clip (((m + -trunc X : Int) : ℝ) / (MAX_VOLUME : ℝ)) * (MAX_VOLUME : ℝ)) ≤
      -29162 := by
    apply trunc_le
    simp only [MAX_VOLUME] at hy ⊢
    push_cast at hy ⊢
    nlinarith
  omega

end RunningLimiter
section Retirement

variable {α : Type} [LinearOrderedField α] [FloorRing α]

/-- A cycle leaves a free slot as it is. -/
theorem audio_callback_synth_free_slot (sin : α → α) (s : Synth α) (cap : Nat)
    (v : Fin MAX_POLYPHONY) (h : (s.voices v).active = false) :
    (audio_callback_synth sin s cap).1.voices v = s.voices v := by
  rw [audio_callback_synth_voices, mix_voices_voices, if_neg (by simp [h])]

/-- What a cycle makes of a slot depends on that slot only. -/
theorem audio_callback_synth_slot_congr (sin : α → α) (s₁ s₂ : Synth α) (cap : Nat)
    (u : Fin MAX_POLYPHONY) (h : s₁.voices u = s₂.voices u) :
    (audio_callback_synth sin s₁ cap).1.voices u = (audio_callback_synth sin s₂ cap).1.voices u := by
  rw [audio_callback_synth_voices, audio_callback_synth_voices, mix_voices_voices,
    mix_voices_voices, h]

/-- Over any number of cycles a free slot stays free, and the buffers do not
depend on what the free slot holds. -/
theorem render_cycles_free_slot (sin : α → α) (v : Fin MAX_POLYPHONY) (caps : List Nat)
    (s₁ s₂ : Synth α) (hw : s₁.wav_file = s₂.wav_file)
    (ht : s₁.total_samples_written = s₂.total_samples_written)
    (hr : s₁.recording = s₂.recording) (hu : ∀ u, u ≠ v → s₁.voices u = s₂.voices u)
    (h₁ : (s₁.voices v).active = false) (h₂ : (s₂.voices v).active = false) :
    (render_cycles sin s₁ caps).2 = (render_cycles sin s₂ caps).2 ∧
    ((render_cycles sin s₁ caps).1.voices v).active = false := by
  induction caps generalizing s₁ s₂ with
  | nil => exact ⟨rfl, h₁⟩
  | cons cap caps ih =>
    have hsound : ∀ j w, sounding (s₁.voices w) j = sounding (s₂.voices w) j ∧
        (sounding (s₁.voices w) j = true → s₁.voices w = s₂.voices w) := by
      intro j w
      by_cases hwv : w = v
      · subst hwv
        rw [sounding_of_inactive _ j h₁, sounding_of_inactive _ j h₂]
        simp
      · rw [hu w hwv]
        exact ⟨rfl, fun _ => rfl⟩
    obtain ⟨c1, c2, c3, c4⟩ := audio_callback_synth_congr sin s₁ s₂ cap hw ht hr hsound
    have := ih (audio_callback_synth sin s₁ cap).1 (audio_callback_synth sin s₂ cap).1 c2 c3 c4
      (fun u huv => audio_callback_synth_slot_congr sin s₁ s₂ cap u (hu u huv))
      (by rw [audio_callback_synth_free_slot sin s₁ cap v h₁]; exact h₁)
      (by rw [audio_callback_synth_free_slot sin s₂ cap v h₂]; exact h₂)
    simp only [render_cycles]
    exact ⟨by rw [c1, this.1], this.2⟩

/-- A voice that is active at the start of a render cycle and whose time is up
at frame `i` is inactive when the cycle ends; the samples at indices `≥ i` and
the other voices come out of the cycle as if the slot had been free from the
start; and in any later cycles the slot stays inactive and the buffers are those
of a pool whose slot holds any other free voice. -/
theorem expired_voice_as_free_slot (sin : α → α) (s : Synth α) (cap : Nat) (v : Fin MAX_POLYPHONY)
    (i : Nat) (hi : i < cap / 2) (hact : (s.voices v).active = true)
    (hexp : (s.voices v).duration ≤ (voice_at (s.voices v) i).elapsedTime) :
    ((audio_callback_synth sin s cap).1.voices v).active = false ∧
    (∀ j, i ≤ j → (audio_callback_synth sin s cap).2[j]? =
      (audio_callback_synth sin
        { s with voices := Function.update s.voices v { s.voices v with active := false } }
        cap).2[j]?) ∧
    (∀ u, u ≠ v → (audio_callback_synth sin s cap).1.voices u =
      (audio_callback_synth sin
        { s with voices := Function.update s.voices v { s.voices v with active := false } }
        cap).1.voices u) ∧
    (∀ caps : List Nat,
      ((render_cycles sin (audio_callback_synth sin s cap).1 caps).1.voices v).active = false ∧
      ∀ w : Voice α, w.active = false →
        (render_cycles sin (audio_callback_synth sin s cap).1 caps).2 =
          (render_cycles sin
            { (audio_callback_synth sin s cap).1 with
              voices := Function.update (audio_callback_synth sin s cap).1.voices v w } caps).2) := by
  have hret : ((audio_callback_synth sin s cap).1.voices v).active = false := by
    rw [audio_callback_synth_voices, mix_voices_voices, if_pos hact]
    exact frame_loop_retires sin (cap / 2) 0 i _ _ hi hexp
  refine ⟨hret, ?_, ?_, ?_⟩
  · intro j hij
    rw [audio_callback_synth_samples, audio_callback_synth_samples]
    rcases Nat.lt_or_ge j (cap / 2) with hj | hj
    · simp only [List.getElem?_map, List.getElem?_range hj, Option.map_some']
      congr 1
      apply limited_running_congr
      intro u
      by_cases huv : u = v
      · subst huv
        simp only [Function.update_same]
        rw [sounding_of_expired _ i j hij hexp, sounding_of_inactive _ j rfl]
        simp
      · simp [Function.update_noteq huv]
    · rw [List.getElem?_eq_none (by simpa using hj), List.getElem?_eq_none (by simpa using hj)]
  · intro u huv
    apply audio_callback_synth_slot_congr
    simp [Function.update_noteq huv]
  · intro caps
    refine ⟨(render_cycles_free_slot sin v caps _ _ rfl rfl rfl (fun _ _ => rfl) hret hret).2, ?_⟩
    intro w hw
    refine (render_cycles_free_slot sin v caps (audio_callback_synth sin s cap).1
      { (audio_callback_synth sin s cap).1 with
        voices := Function.update (audio_callback_synth sin s cap).1.voices v w }
      rfl rfl rfl ?_ hret ?_).1
    · intro u huv
      simp [Function.update_noteq huv]
    · simp [hw]

end Retirement
section Overshoot

variable {α : Type} [LinearOrderedField α]

/-- On a pool whose slot 0 is free `play_tone` initialises slot 0. -/
theorem play_tone_slot_zero (RAND_MAX r : Int) (synth : Synth α) (freq duration : α)
    (harmonics : List α) (num_harmonics velocity : Int)
    (h : (synth.voices ⟨0, by decide⟩).active = false) :
    play_tone RAND_MAX r synth freq duration harmonics num_harmonics velocity =
      { synth with voices := (Function.update synth.voices ⟨0, by decide⟩
          (init_voice RAND_MAX r (synth.voices ⟨0, by decide⟩) freq duration harmonics
            (if num_harmonics > MAX_HARMONICS then (MAX_HARMONICS : Int) else num_harmonics)
            velocity)) } := by
  have hf : first_inactive synth.voices (List.finRange MAX_POLYPHONY) = some ⟨0, by decide⟩ := by
    rw [finRange_polyphony]
    simp only [first_inactive, h, Bool.not_false, if_true]
  simp only [play_tone, hf]

variable [FloorRing α]

/-- The overshoot bound is kept by `play_tone` calls with positive duration and
by render cycles. -/
theorem reachable_overshoot (sin : α → α) (RAND_MAX : Int) (s : Synth α)
    (hs : Reachable sin RAND_MAX s) (v : Fin MAX_POLYPHONY) (hv : (s.voices v).active = true) :
    (s.voices v).elapsedTime < (s.voices v).duration + 1 / (SAMPLE_RATE : α) := by
  have hpos : (0 : α) < 1 / (SAMPLE_RATE : α) := by norm_num [SAMPLE_RATE]
  induction hs generalizing v with
  | start s h =>
    rw [h v] at hv
    exact absurd hv (by simp)
  | play s q _ _ hdur ih =>
    by_cases hall : ∀ u, (s.voices u).active = true
    · unfold play_request at hv ⊢
      rw [play_tone_full _ _ _ _ _ _ _ _ hall] at hv ⊢
      exact ih v hv
    · push_neg at hall
      obtain ⟨u, hu⟩ := hall
      have hu' : (s.voices u).active = false := by simpa using hu
      obtain ⟨w, -, -, heq⟩ :=
        play_tone_alloc RAND_MAX q.r s q.freq q.duration q.harmonics q.num_harmonics q.velocity
          u hu'
      unfold play_request at hv ⊢
      rw [heq] at hv ⊢
      by_cases hvw : v = w
      · subst hvw
        simp only [Function.update_same, init_voice]
        linarith
      · simp only [Function.update_noteq hvw] at hv ⊢
        exact ih v hv
  | render s cap _ ih =>
    rw [audio_callback_synth_voices, mix_voices_voices] at hv ⊢
    split_ifs at hv ⊢ with hact
    · exact frame_loop_overshoot sin _ _ _ _ (fun h => ih v h) hv
    · exact ih v hv

/-- The first voice after `play_tone(440, 0.0232, [1], 127)` on the start-up
state and one cycle of 1024 frames: still active, 1024 sample periods old. -/
theorem overshoot_state (sin : α → α) (RAND_MAX r : Int) :
    ((audio_callback_synth sin
        (play_request RAND_MAX (Synth.init α) ⟨r, 440, 0.0232, [1], 1, 127⟩) 2048).1.voices
      ⟨0, by decide⟩).active = true ∧
    ((audio_callback_synth sin
        (play_request RAND_MAX (Synth.init α) ⟨r, 440, 0.0232, [1], 1, 127⟩) 2048).1.voices
      ⟨0, by decide⟩).duration = 0.0232 ∧
    ((audio_callback_synth sin
        (play_request RAND_MAX (Synth.init α) ⟨r, 440, 0.0232, [1], 1, 127⟩) 2048).1.voices
      ⟨0, by decide⟩).elapsedTime = 1024 / 44100 := by
  unfold play_request
  rw [play_tone_slot_zero _ _ _ _ _ _ _ _ rfl, audio_callback_synth_voices, mix_voices_voices]
  simp only [Function.update_same]
  set nv := init_voice RAND_MAX r ((Synth.init α).voices ⟨0, by decide⟩) (440 : α) 0.0232 [1]
    (if (1 : Int) > MAX_HARMONICS then (MAX_HARMONICS : Int) else 1) 127 with hnv
  have hna : nv.active = true := rfl
  have hnd : nv.duration = 0.0232 := rfl
  have hne : nv.elapsedTime = 0 := rfl
  have hrun : ∀ k, k < 2048 / 2 → (voice_at nv k).elapsedTime < nv.duration := by
    intro k hk
    rw [voice_at_elapsedTime, hne, hnd]
    have hk' : (k : α) ≤ 1023 := by exact_mod_cast (by omega : k ≤ 1023)
    simp only [SAMPLE_RATE]
    rw [zero_add, div_lt_iff₀ (by norm_num)]
    norm_num
    linarith
  rw [if_pos hna, frame_loop_runs sin _ _ _ _ hrun]
  refine ⟨by rw [voice_at_active, hna], by rw [voice_at_duration, hnd], ?_⟩
  rw [voice_at_elapsedTime, hne]
  norm_num [SAMPLE_RATE]

end Overshoot

section Invariant

/-- C7, as stated, fails: after `play_tone(440, 0.0232, [1], 127)` on the
start-up state and one cycle of 1024 frames the state is reachable and its
first voice is active with `elapsedTime = 1024/44100 > 0.0232 = duration`. -/
theorem active_voice_past_duration :
    Reachable Real.sin 2147483647
      (audio_callback_synth Real.sin
        (play_request 2147483647 (Synth.init ℝ) ⟨0, 440, 0.0232, [1], 1, 127⟩) 2048).1 ∧
    ((audio_callback_synth Real.sin
        (play_request 2147483647 (Synth.init ℝ) ⟨0, 440, 0.0232, [1], 1, 127⟩) 2048).1.voices
      ⟨0, by decide⟩).active = true ∧
    ¬ ((audio_callback_synth Real.sin
        (play_request 2147483647 (Synth.init ℝ) ⟨0, 440, 0.0232, [1], 1, 127⟩) 2048).1.voices
      ⟨0, by decide⟩).elapsedTime ≤
      ((audio_callback_synth Real.sin
        (play_request 2147483647 (Synth.init ℝ) ⟨0, 440, 0.0232, [1], 1, 127⟩) 2048).1.voices
      ⟨0, by decide⟩).duration := by
  obtain ⟨h1, h2, h3⟩ := overshoot_state Real.sin 2147483647 0
  refine ⟨?_, h1, ?_⟩
  · refine Reachable.render _ _ (Reachable.play _ _ (Reachable.start _ (fun _ => rfl)) ?_ ?_)
    · show (0 : ℝ) < 440
      norm_num
    · show (0 : ℝ) < 0.0232
      norm_num
  · rw [h2, h3]
    norm_num

variable {α : Type} [LinearOrderedField α] [FloorRing α]

/-- C7, amended: in every pool state reachable from a pool without active
voice by `play_tone` calls with frequency `> 0` and duration `> 0` and by render
cycles of any frame count, every active voice has
`elapsedTime < duration + 1/SAMPLE_RATE`: the time test precedes the frame, so
an active voice is less than one sample period past its duration. -/
theorem active_voice_within_one_period (sin : α → α) (RAND_MAX : Int) (s : Synth α)
    (hs : Reachable sin RAND_MAX s) (v : Fin MAX_POLYPHONY) (hv : (s.voices v).active = true) :
    (s.voices v).elapsedTime < (s.voices v).duration + 1 / 44100 := by
  have := reachable_overshoot sin RAND_MAX s hs v hv
  simpa [SAMPLE_RATE] using this

/-- The amended C7 for the first voice of the overshooting state. -/
theorem active_voice_within_one_period_witness :
    ((audio_callback_synth Real.sin
        (play_request 2147483647 (Synth.init ℝ) ⟨0, 440, 0.0232, [1], 1, 127⟩) 2048).1.voices
      ⟨0, by decide⟩).elapsedTime <
    ((audio_callback_synth Real.sin
        (play_request 2147483647 (Synth.init ℝ) ⟨0, 440, 0.0232, [1], 1, 127⟩) 2048).1.voices
      ⟨0, by decide⟩).duration + 1 / 44100 :=
  active_voice_within_one_period Real.sin 2147483647 _
    (Reachable.render _ _ (Reachable.play _ _ (Reachable.start _ (fun _ => rfl))
      (show (0 : ℝ) < 440 by norm_num) (show (0 : ℝ) < 0.0232 by norm_num)))
    ⟨0, by decide⟩ (overshoot_state Real.sin 2147483647 0).1

end Invariant
section EndToEnd

variable {α : Type} [LinearOrderedField α] [FloorRing α]

/-- A frame at which no voice sounds is left at 0. -/
theorem limited_running_silent (sin : α → α) (voices : Voices α) (j : Nat)
    (h : ∀ v, sounding (voices v) j = false) : limited_running sin voices j = 0 := by
  unfold limited_running
  generalize List.finRange MAX_POLYPHONY = l
  induction l with
  | nil => rfl
  | cons v l ih =>
    rw [List.foldl_cons, h v]
    simpa using ih

/-- After the 10 ms note on a pool without active voice no voice sounds from
frame 441 on. -/
theorem short_note_silent_from_441 (sin : α → α) (RAND_MAX r : Int) (s : Synth α)
    (h : ∀ v, (s.voices v).active = false) (j : Nat) (hj : 441 ≤ j) :
    limited_running sin (play_tone RAND_MAX r s 440 0.01 [1.0] 1 127).voices j = 0 := by
  obtain ⟨v, -, -, heq⟩ := play_tone_alloc RAND_MAX r s 440 0.01 [1.0] 1 127 ⟨0, by decide⟩ (h _)
  rw [heq]
  apply limited_running_silent
  intro u
  by_cases huv : u = v
  · subst huv
    simp only [Function.update_same]
    apply sounding_of_expired _ 441 j hj
    rw [voice_at_elapsedTime]
    show (0.01 : α) ≤ 0 + ((441 : Nat) : α) / (SAMPLE_RATE : α)
    norm_num [SAMPLE_RATE]
  · simp only [Function.update_noteq huv]
    exact sounding_of_inactive _ j (h u)

/-- C8: on a pool without active voice, after
`play_tone(440.0, 0.01, [1.0], velocity 127)` and one render cycle of 1024
frames (2048 bytes) at 44100 Hz, every sample at a frame index greater than 441
is exactly 0, whatever the initial phase and the values of `sin`. -/
theorem short_note_silent_after_441 (sin : α → α) (RAND_MAX r : Int) (s : Synth α)
    (h : ∀ v, (s.voices v).active = false) (j : Nat) (hj : 441 < j) (hj' : j < 1024) :
    (audio_callback_synth sin (play_tone RAND_MAX r s 440 0.01 [1.0] 1 127) 2048).2[j]? =
      some 0 := by
  rw [audio_callback_synth_samples]
  have hj2 : j < 2048 / 2 := by omega
  simp only [List.getElem?_map, List.getElem?_range hj2, Option.map_some']
  rw [short_note_silent_from_441 sin RAND_MAX r s h j (by omega)]

/-- C8 at frame 500, from the start-up state. -/
theorem short_note_silent_after_441_witness :
    (audio_callback_synth Real.sin
      (play_tone 2147483647 12345 (Synth.init ℝ) 440 0.01 [1.0] 1 127) 2048).2[500]? = some 0 :=
  short_note_silent_after_441 Real.sin 2147483647 12345 (Synth.init ℝ) (fun _ => rfl) 500
    (by decide) (by decide)

end EndToEnd
section Recorder

theorem fwrite_at_end (bytes data : List Nat) :
    File.fwrite ⟨bytes, bytes.length⟩ data = ⟨bytes ++ data, (bytes ++ data).length⟩ := by
  simp [File.fwrite]

theorem le16s_flatMap_length (samples : List Int) :
    (samples.flatMap le16s).length = 2 * samples.length := by
  induction samples with
  | nil => rfl
  | cons x l ih =>
    rw [List.flatMap_cons, List.length_append, ih, List.length_cons]
    simp [le16s, le16]
    omega

theorem rd32_le32 (pre post : List Nat) (x : Nat) (hx : x < 2 ^ 32) :
    rd32 (pre ++ le32 x ++ post) pre.length = x := by
  unfold rd32
  rw [List.append_assoc, List.getD_append_right _ _ _ _ (le_refl _),
    List.getD_append_right _ _ _ _ (Nat.le_add_right _ 1),
    List.getD_append_right _ _ _ _ (Nat.le_add_right _ 2),
    List.getD_append_right _ _ _ _ (Nat.le_add_right _ 3)]
  simp only [Nat.sub_self, Nat.add_sub_cancel_left, le32, List.cons_append, List.getD_cons_zero,
    List.getD_cons_succ]
  omega

theorem header_bytes :
    write_wav_header ⟨[], 0⟩ 44100 16 1 = ⟨wav_header_44100_16_1, 44⟩ := by
  decide

/-- Finalising a file that starts with the 44-byte header rewrites bytes 4-7 and
40-43 and nothing else. -/
theorem finalize_bytes (data : List Nat) (p total_samples : Nat) :
    (finalize_wav_file ⟨wav_header_44100_16_1 ++ data, p⟩ total_samples).bytes =
      tag "RIFF" ++ le32 (u32 (36 + u32 (total_samples * 2))) ++
        (wav_header_44100_16_1.drop 8).take 32 ++ le32 (u32 (total_samples * 2)) ++ data := by
  simp [finalize_wav_file, File.fseek, File.fwrite, wav_header_44100_16_1, le32, tag]

variable {α : Type} [LinearOrderedField α] [FloorRing α]

theorem audio_callback_synth_length (sin : α → α) (s : Synth α) (cap : Nat) :
    (audio_callback_synth sin s cap).2.length = cap / 2 := by
  rw [audio_callback_synth_samples]
  simp

/-- While a session is open, the cycles append their buffers to the file and
count their frames. -/
theorem render_cycles_recording (sin : α → α) (caps : List Nat) (s : Synth α) (bytes : List Nat)
    (t : Nat) (hr : s.recording = true) (hw : s.wav_file = some ⟨bytes, bytes.length⟩)
    (ht : s.total_samples_written = u32 t) :
    (render_cycles sin s caps).1.recording = true ∧
    (render_cycles sin s caps).1.wav_file =
      some ⟨bytes ++ (render_cycles sin s caps).2.flatten.flatMap le16s,
        (bytes ++ (render_cycles sin s caps).2.flatten.flatMap le16s).length⟩ ∧
    (render_cycles sin s caps).1.total_samples_written =
      u32 (t + (render_cycles sin s caps).2.flatten.length) := by
  induction caps generalizing s bytes t with
  | nil =>
    simp only [render_cycles, List.flatten_nil, List.flatMap_nil, List.append_nil,
      List.length_nil, Nat.add_zero]
    exact ⟨hr, hw, ht⟩
  | cons cap caps ih =>
    obtain ⟨r1, w1, t1⟩ := audio_callback_synth_recorder sin s cap
    rw [hr, hw] at w1 t1
    simp only at w1 t1
    rw [fwrite_at_end] at w1
    rw [hr] at r1
    have t1' : (audio_callback_synth sin s cap).1.total_samples_written =
        u32 (t + (audio_callback_synth sin s cap).2.length) := by
      rw [t1, ht, audio_callback_synth_length]
      simp [u32, Nat.add_mod]
    obtain ⟨h1, h2, h3⟩ := ih (audio_callback_synth sin s cap).1 _ _ r1 w1 t1'
    simp only [render_cycles, List.flatten_cons, List.flatMap_append, List.length_append]
    refine ⟨h1, ?_, ?_⟩
    · rw [h2]
      simp [List.append_assoc]
    · rw [h3, Nat.add_assoc]

theorem render_cycles_lengths (sin : α → α) (N cap : Nat) (s : Synth α) :
    (render_cycles sin s (List.replicate N cap)).2.length = N ∧
    (∀ b ∈ (render_cycles sin s (List.replicate N cap)).2, b.length = cap / 2) ∧
    (render_cycles sin s (List.replicate N cap)).2.flatten.length = N * (cap / 2) := by
  induction N generalizing s with
  | zero => simp [render_cycles]
  | succ N ih =>
    obtain ⟨h1, h2, h3⟩ := ih (audio_callback_synth sin s cap).1
    simp only [List.replicate_succ, render_cycles, List.length_cons, List.mem_cons,
      List.flatten_cons, List.length_append]
    refine ⟨by rw [h1], ?_, ?_⟩
    · rintro b (rfl | hb)
      · exact audio_callback_synth_length sin s cap
      · exact h2 b hb
    · rw [h3, audio_callback_synth_length]
      ring

/-- C10: `write_wav_header(44100, 16, 1)` on a fresh file emits exactly 44
bytes: `RIFF`, a zero size, `WAVE`, `fmt `, 16, format 1, channels 1, sample
rate 44100, byte rate 88200, block align 2, bits per sample 16, `data`, a zero
size, integers little-endian; and `finalize_wav_file` overwrites exactly the
four bytes at offset 4 (RIFF size) and the four bytes at offset 40 (data size)
of a file that starts with this header. -/
theorem write_wav_header_layout (data : List Nat) (p total_samples : Nat) :
    write_wav_header ⟨[], 0⟩ 44100 16 1 = ⟨wav_header_44100_16_1, 44⟩ ∧
    wav_header_44100_16_1.length = 44 ∧
    wav_header_44100_16_1 =
      tag "RIFF" ++ le32 0 ++ tag "WAVE" ++ tag "fmt " ++ le32 16 ++ le16 1 ++ le16 1 ++
        le32 44100 ++ le32 88200 ++ le16 2 ++ le16 16 ++ tag "data" ++ le32 0 ∧
    (wav_header_44100_16_1.take 4 = tag "RIFF" ∧
      (wav_header_44100_16_1.drop 4).take 4 = le32 0 ∧
      (wav_header_44100_16_1.drop 36).take 4 = tag "data" ∧
      (wav_header_44100_16_1.drop 40).take 4 = le32 0) ∧
    (finalize_wav_file ⟨wav_header_44100_16_1 ++ data, p⟩ total_samples).bytes =
      wav_header_44100_16_1.take 4 ++ le32 (u32 (36 + u32 (total_samples * 2))) ++
        (wav_header_44100_16_1.drop 8).take 32 ++ le32 (u32 (total_samples * 2)) ++ data := by
  refine ⟨by decide, by decide, by decide, by decide, ?_⟩
  rw [finalize_bytes]
  rfl

end Recorder
section LowestSlot

variable {α : Type}

/-- In an increasing list of slots the scan skips active slots only. -/
theorem first_inactive_lowest (voices : Voices α) (l : List (Fin MAX_POLYPHONY))
    (hl : l.Pairwise (· < ·)) (v : Fin MAX_POLYPHONY) (h : first_inactive voices l = some v)
    (u : Fin MAX_POLYPHONY) (hu : u ∈ l) (huv : u < v) : (voices u).active = true := by
  induction l with
  | nil => simp at hu
  | cons w l ih =>
    unfold first_inactive at h
    have hp := List.pairwise_cons.mp hl
    cases hw : (voices w).active
    · simp only [hw, Bool.not_false, if_true, Option.some.injEq] at h
      subst h
      rcases List.mem_cons.mp hu with rfl | hul
      · exact absurd huv (lt_irrefl _)
      · exact absurd (lt_trans (hp.1 u hul) huv) (lt_irrefl _)
    · simp only [hw, Bool.not_true, Bool.false_eq_true, if_false] at h
      rcases List.mem_cons.mp hu with rfl | hul
      · exact hw
      · exact ih hp.2 h hul

/-- The scan of `play_tone` finds the inactive slot of lowest index. -/
theorem first_inactive_finRange (voices : Voices α) (v : Fin MAX_POLYPHONY)
    (hv : (voices v).active = false) (hlow : ∀ u, u < v → (voices u).active = true) :
    first_inactive voices (List.finRange MAX_POLYPHONY) = some v := by
  cases hf : first_inactive voices (List.finRange MAX_POLYPHONY) with
  | none =>
    have := (first_inactive_eq_none _ _).mp hf v (List.mem_finRange v)
    rw [hv] at this
    exact absurd this (by simp)
  | some w =>
    have hw := (first_inactive_eq_some _ _ _ hf).1
    rcases lt_trichotomy w v with h | h | h
    · rw [hlow w h] at hw
      exact absurd hw (by simp)
    · rw [h]
    · have := first_inactive_lowest voices _ (List.pairwise_lt_finRange _) w hf v
        (List.mem_finRange v) h
      rw [hv] at this
      exact absurd this (by simp)

end LowestSlot

section Weights

variable {α : Type} [LinearOrderedField α]

/-- The weight loop writes the entries below `num_harmonics` and leaves the
others as they were. -/
theorem scale_weights_apply (weights : Fin MAX_HARMONICS → α) (harmonics : List α)
    (num_harmonics : Int) (velocity_scale : α) (i : Fin MAX_HARMONICS) :
    scale_weights weights harmonics num_harmonics velocity_scale i =
      if i.val < num_harmonics.toNat then harmonics.getD i.val 0 * velocity_scale
      else weights i := by
  unfold scale_weights
  generalize num_harmonics.toNat = n
  induction n with
  | zero => simp
  | succ n ih =>
    rw [List.range_succ, List.foldl_append, List.foldl_cons, List.foldl_nil]
    by_cases hn : n < MAX_HARMONICS
    · rw [dif_pos hn]
      by_cases hin : i = ⟨n, hn⟩
      · subst hin
        simp
      · rw [Function.update_noteq hin, ih]
        have hne : i.val ≠ n := fun h => hin (Fin.ext h)
        by_cases hlt : i.val < n
        · rw [if_pos hlt, if_pos (by omega)]
        · rw [if_neg hlt, if_neg (by omega)]
    · rw [dif_neg hn, ih]
      have : i.val < n := lt_of_lt_of_le i.isLt (not_lt.mp hn)
      rw [if_pos this, if_pos (by omega)]

/-- C11: for every pool whose inactive voice of lowest index is `v`,
`play_tone` activates `v`, sets its frequency and duration to the arguments,
its phase increment to `2*PI*frequency/44100` and its `elapsedTime` to 0, and
leaves every other voice of the pool (and the recorder fields) unchanged. -/
theorem play_tone_allocates_lowest (RAND_MAX r : Int) (s : Synth α) (freq duration : α)
    (harmonics : List α) (num_harmonics velocity : Int) (v : Fin MAX_POLYPHONY)
    (hv : (s.voices v).active = false) (hlow : ∀ u, u < v → (s.voices u).active = true) :
    ((play_tone RAND_MAX r s freq duration harmonics num_harmonics velocity).voices v).active
      = true ∧
    ((play_tone RAND_MAX r s freq duration harmonics num_harmonics velocity).voices v).frequency
      = freq ∧
    ((play_tone RAND_MAX r s freq duration harmonics num_harmonics velocity).voices v).duration
      = duration ∧
    ((play_tone RAND_MAX r s freq duration harmonics num_harmonics velocity).voices
      v).phase_increment = 2 * PI * freq / 44100 ∧
    ((play_tone RAND_MAX r s freq duration harmonics num_harmonics velocity).voices
      v).elapsedTime = 0 ∧
    (∀ u, u ≠ v →
      (play_tone RAND_MAX r s freq duration harmonics num_harmonics velocity).voices u =
        s.voices u) ∧
    (play_tone RAND_MAX r s freq duration harmonics num_harmonics velocity).wav_file =
      s.wav_file ∧
    (play_tone RAND_MAX r s freq duration harmonics num_harmonics velocity).total_samples_written =
      s.total_samples_written ∧
    (play_tone RAND_MAX r s freq duration harmonics num_harmonics velocity).recording =
      s.recording := by
  have hf := first_inactive_finRange s.voices v hv hlow
  simp only [play_tone, hf, Function.update_same, init_voice, SAMPLE_RATE, Nat.cast_ofNat,
    true_and, and_true]
  intro u hu
  exact Function.update_noteq hu _ _

/-- C11 on a pool whose slots 0 and 1 are taken: the request goes to slot 2. -/
theorem play_tone_allocates_lowest_witness :
    ((play_tone 2147483647 0 (⟨clash_pool ℚ, none, 0, false⟩ : Synth ℚ) 440 1 [1] 1 127).voices
      ⟨2, by decide⟩).active = true :=
  (play_tone_allocates_lowest 2147483647 0 (⟨clash_pool ℚ, none, 0, false⟩ : Synth ℚ) 440 1 [1]
    1 127 ⟨2, by decide⟩ rfl (by decide)).1

/-- C12: when `play_tone` is called with `n` harmonic weights (any `n`, also 0)
and velocity `v` and allocates the slot `slot` (the inactive slot of lowest
index), the voice stores `min(n, 100)` harmonics, and for every
`i < min(n, 100)` its weight `i` is `harmonics[i] * min(max(v/127, 0), 1)`; so
it is 0 for every `v ≤ 0` and `harmonics[i]` itself for every `v ≥ 127`. -/
theorem play_tone_scales_weights (RAND_MAX r : Int) (s : Synth α) (freq duration : α)
    (harmonics : List α) (velocity : Int) (slot : Fin MAX_POLYPHONY)
    (hv : (s.voices slot).active = false) (hlow : ∀ u, u < slot → (s.voices u).active = true) :
    ((play_tone RAND_MAX r s freq duration harmonics harmonics.length velocity).voices
      slot).num_harmonics = min harmonics.length 100 ∧
    ∀ i, i < min harmonics.length 100 →
      ((play_tone RAND_MAX r s freq duration harmonics harmonics.length velocity).voices
        slot).weight i = harmonics.getD i 0 * min (max ((velocity : α) / 127) 0) 1 ∧
      (velocity ≤ 0 →
        ((play_tone RAND_MAX r s freq duration harmonics harmonics.length velocity).voices
          slot).weight i = 0) ∧
      (127 ≤ velocity →
        ((play_tone RAND_MAX r s freq duration harmonics harmonics.length velocity).voices
          slot).weight i = harmonics.getD i 0) := by
  have hf := first_inactive_finRange s.voices slot hv hlow
  have hn : (if (harmonics.length : Int) > (MAX_HARMONICS : Int) then (MAX_HARMONICS : Int)
      else (harmonics.length : Int)) = ((min harmonics.length 100 : Nat) : Int) := by
    simp only [MAX_HARMONICS]
    split_ifs with h
    · have : 100 ≤ harmonics.length := by omega
      rw [min_eq_right this]
    · have : harmonics.length ≤ 100 := by omega
      rw [min_eq_left this]
  refine ⟨?_, fun i hi => ?_⟩
  · simp only [play_tone, hf, Function.update_same, init_voice]
    exact_mod_cast hn
  have hi100 : i < MAX_HARMONICS := lt_of_lt_of_le hi (min_le_right _ _)
  have hw : ((play_tone RAND_MAX r s freq duration harmonics harmonics.length velocity).voices
      slot).weight i = harmonics.getD i 0 * min (max ((velocity : α) / 127) 0) 1 := by
    simp only [play_tone, hf, Function.update_same, init_voice, Voice.weight, dif_pos hi100]
    rw [scale_weights_apply, hn, Int.toNat_ofNat, if_pos hi]
  refine ⟨hw, ?_, ?_⟩
  · intro hvel
    rw [hw]
    have : ((velocity : α) / 127) ≤ 0 :=
      div_nonpos_of_nonpos_of_nonneg (by exact_mod_cast hvel) (by norm_num)
    rw [max_eq_right this, min_eq_left (by norm_num), mul_zero]
  · intro hvel
    rw [hw]
    have h1 : (1 : α) ≤ (velocity : α) / 127 := by
      rw [le_div_iff₀ (by norm_num)]
      have : ((127 : Int) : α) ≤ (velocity : α) := by exact_mod_cast hvel
      simpa using this
    rw [max_eq_left (le_trans zero_le_one h1), min_eq_right h1, mul_one]

/-- C12 on the start-up state: two weights at velocity 64 (count 2, weight 1
scaled by 64/127), and no weight at all (count 0). -/
theorem play_tone_scales_weights_witness :
    ((play_tone 2147483647 0 (Synth.init ℚ) 440 1 [1, 1 / 2] ([1, 1 / 2] : List ℚ).length
      64).voices ⟨0, by decide⟩).num_harmonics = min ([1, 1 / 2] : List ℚ).length 100 ∧
    ((play_tone 2147483647 0 (Synth.init ℚ) 440 1 [1, 1 / 2] ([1, 1 / 2] : List ℚ).length
      64).voices ⟨0, by decide⟩).weight 1 =
      ([1, 1 / 2] : List ℚ).getD 1 0 * min (max (((64 : Int) : ℚ) / 127) 0) 1 ∧
    ((play_tone 2147483647 0 (Synth.init ℚ) 440 1 [] ([] : List ℚ).length
      64).voices ⟨0, by decide⟩).num_harmonics = min ([] : List ℚ).length 100 :=
  ⟨(play_tone_scales_weights 2147483647 0 (Synth.init ℚ) 440 1 [1, 1 / 2] 64 ⟨0, by decide⟩ rfl
      (by decide)).1,
    ((play_tone_scales_weights 2147483647 0 (Synth.init ℚ) 440 1 [1, 1 / 2] 64 ⟨0, by decide⟩ rfl
      (by decide)).2 1 (by decide)).1,
    (play_tone_scales_weights 2147483647 0 (Synth.init ℚ) 440 1 [] 64 ⟨0, by decide⟩ rfl
      (by decide)).1⟩

end Weights
section RecorderNoOp

variable {α : Type} [LinearOrderedField α]

theorem recorder_consistent_init : recorder_consistent (Synth.init α) :=
  fun _ => rfl

theorem recorder_consistent_play_tone (RAND_MAX r : Int) (s : Synth α) (freq duration : α)
    (harmonics : List α) (num_harmonics velocity : Int) (h : recorder_consistent s) :
    recorder_consistent
      (play_tone RAND_MAX r s freq duration harmonics num_harmonics velocity) := by
  cases hf : first_inactive s.voices (List.finRange MAX_POLYPHONY) with
  | none =>
    simp only [play_tone, hf]
    exact h
  | some v =>
    simp only [play_tone, hf]
    exact h

end RecorderNoOp

section RecorderHandle

variable {α : Type}

theorem recorder_consistent_start_recording (s : Synth α) (fopen_result : Option File)
    (h : recorder_consistent s) : recorder_consistent (start_recording s fopen_result) := by
  unfold start_recording
  split_ifs with hr
  · exact h
  · cases fopen_result with
    | none => exact fun _ => rfl
    | some file =>
      intro hf
      exact absurd hf (by simp)

theorem recorder_consistent_stop_recording (s : Synth α) (h : recorder_consistent s) :
    recorder_consistent (stop_recording s).1 := by
  unfold stop_recording
  split_ifs with hr
  · exact h
  · cases hw : s.wav_file with
    | none => exact fun _ => rfl
    | some file => exact fun _ => rfl

end RecorderHandle

section RecorderCycle

variable {α : Type} [LinearOrderedField α] [FloorRing α]

theorem recorder_consistent_audio_callback_synth (sin : α → α) (s : Synth α) (cap : Nat)
    (h : recorder_consistent s) : recorder_consistent (audio_callback_synth sin s cap).1 := by
  obtain ⟨r1, w1, -⟩ := audio_callback_synth_recorder sin s cap
  intro hr
  rw [r1] at hr
  rw [w1, hr]
  exact h hr

end RecorderCycle

section StartRecording

variable {α : Type}

/-- C13: in a state whose recorder fields are as the functions of the source
leave them (a file handle is held only while recording), `start_recording`
returns the state unchanged (flag, handle with the bytes written so far,
counter, and everything else) both when a session is already recording and when
the target cannot be opened; in the second case the flag stays inactive. -/
theorem start_recording_no_op (s : Synth α) (fopen_result : Option File)
    (h : recorder_consistent s) :
    (s.recording = true → start_recording s fopen_result = s) ∧
    start_recording s none = s ∧
    (s.recording = false → (start_recording s none).recording = false) := by
  have h2 : start_recording s none = s := by
    unfold start_recording
    split_ifs with hr
    · rfl
    · have hw := h (by simpa using hr)
      rcases s with ⟨vs, wf, t, rec⟩
      simp only at hw
      subst hw
      rfl
  refine ⟨fun hr => ?_, h2, fun hr => ?_⟩
  · simp only [start_recording, hr, if_true]
  · rw [h2]
    exact hr

/-- C13 on the start-up state, with the target not opened. -/
theorem start_recording_no_op_witness :
    start_recording (Synth.init ℚ) none = Synth.init ℚ :=
  (start_recording_no_op (Synth.init ℚ) none recorder_consistent_init).2.1

end StartRecording
section EnvelopeRange

variable {α : Type} [LinearOrderedField α]

/-- C18: for every duration (also one shorter than attack + decay + release, or
`≤ 0`) and every `elapsedTime ≥ 0`, `adsr_envelope` returns a value in
`[0, 1]`. -/
theorem adsr_envelope_unit_interval (voice : Voice α) (h : 0 ≤ voice.elapsedTime) :
    0 ≤ adsr_envelope voice ∧ adsr_envelope voice ≤ 1 := by
  unfold adsr_envelope
  simp only [ATTACK_TIME, DECAY_TIME, SUSTAIN_LEVEL, RELEASE_TIME]
  split_ifs with h1 h2 h3 h4
  · constructor
    · exact div_nonneg h (by norm_num)
    · rw [div_le_one (by norm_num)]
      exact h1.le
  · have ha : (0 : α) ≤ (voice.elapsedTime - 0.001) / 0.04 :=
      div_nonneg (by linarith [not_lt.mp h1]) (by norm_num)
    have hb : (voice.elapsedTime - 0.001) / 0.04 ≤ (1 : α) := by
      rw [div_le_one (by norm_num)]
      linarith
    constructor <;> norm_num at ha hb ⊢ <;> nlinarith
  · constructor <;> norm_num
  · have ha : (0 : α) ≤ (voice.elapsedTime - (voice.duration - 0.2)) / 0.2 :=
      div_nonneg (by linarith [not_lt.mp h3]) (by norm_num)
    have hb : (voice.elapsedTime - (voice.duration - 0.2)) / 0.2 ≤ (1 : α) := by
      rw [div_le_one (by norm_num)]
      linarith
    constructor <;> norm_num at ha hb ⊢ <;> nlinarith
  · exact ⟨le_refl 0, zero_le_one⟩

/-- C18 for a 10 ms note, 5 ms after its start. -/
theorem adsr_envelope_unit_interval_witness :
    0 ≤ adsr_envelope (⟨true, 440, 0.01, 0, 0, 0.005, 0, fun _ => 0⟩ : Voice ℚ) ∧
    adsr_envelope (⟨true, 440, 0.01, 0, 0, 0.005, 0, fun _ => 0⟩ : Voice ℚ) ≤ 1 :=
  adsr_envelope_unit_interval (⟨true, 440, 0.01, 0, 0, 0.005, 0, fun _ => 0⟩ : Voice ℚ)
    (by norm_num)

end EnvelopeRange
section LimiterShape

variable {α : Type} [LinearOrderedField α]

/-- Above the threshold, in terms of the excess `x - 0.95`. -/
theorem soft_clip_above (x : α) (hx : 19 / 20 < x) :
    soft_clip x = 19 / 20 + (x - 19 / 20) / (1 + (20 * (x - 19 / 20)) ^ 2) := by
  have hx' : (CLIP_THRESHOLD : α) < x := by
    unfold CLIP_THRESHOLD
    norm_num
    exact hx
  simp only [soft_clip, gt_iff_lt, if_pos hx']
  unfold CLIP_THRESHOLD
  have h3 : ((x - 0.95) / (1 - 0.95 : α)) = 20 * (x - 19 / 20) := by norm_num; ring
  rw [h3]
  norm_num

/-- Below the negative threshold, in terms of the excess `x + 0.95`. -/
theorem soft_clip_below (x : α) (hx : x < -(19 / 20)) :
    soft_clip x = -(19 / 20) + (x + 19 / 20) / (1 + (20 * (x + 19 / 20)) ^ 2) := by
  have hx' : x < -(CLIP_THRESHOLD : α) := by
    unfold CLIP_THRESHOLD
    norm_num
    exact hx
  have hn : ¬ (CLIP_THRESHOLD : α) < x := by
    unfold CLIP_THRESHOLD
    norm_num
    linarith
  simp only [soft_clip, gt_iff_lt, if_neg hn, if_pos hx']
  unfold CLIP_THRESHOLD
  have h3 : ((x + 0.95) / (1 - 0.95 : α)) = 20 * (x + 19 / 20) := by norm_num; ring
  rw [h3]
  norm_num

/-- The limiter reaches 0.975 at 1 only. -/
theorem soft_clip_eq_peak (x : α) : soft_clip x = 39 / 40 ↔ x = 1 := by
  rcases lt_or_le (19 / 20 : α) x with h | h
  · rw [soft_clip_above x h]
    have hd : (0 : α) < 1 + (20 * (x - 19 / 20)) ^ 2 := by positivity
    constructor
    · intro he
      have h1 : (x - 19 / 20) / (1 + (20 * (x - 19 / 20)) ^ 2) = 1 / 40 := by linarith
      rw [div_eq_iff hd.ne'] at h1
      have h2 : (20 * (x - 19 / 20) - 1) ^ 2 = 0 := by nlinarith
      have h3 := pow_eq_zero_iff (two_ne_zero) |>.mp h2
      linarith
    · rintro rfl
      norm_num
  · constructor
    · intro he
      have hb := (soft_clip_abs_le x)
      rcases lt_or_le x (-(19 / 20 : α)) with h' | h'
      · have := (soft_clip_lower x (by unfold CLIP_THRESHOLD; norm_num; linarith)).2
        unfold CLIP_THRESHOLD at this
        rw [he] at this
        norm_num at this
      · rw [soft_clip_id x (by rw [abs_le]; unfold CLIP_THRESHOLD; norm_num; exact ⟨by linarith, h⟩)]
          at he
        rw [he] at h
        norm_num at h
    · rintro rfl
      norm_num at h

/-- The limiter reaches -0.975 at -1 only. -/
theorem soft_clip_eq_trough (x : α) : soft_clip x = -(39 / 40) ↔ x = -1 := by
  rcases lt_or_le x (-(19 / 20 : α)) with h | h
  · rw [soft_clip_below x h]
    have hd : (0 : α) < 1 + (20 * (x + 19 / 20)) ^ 2 := by positivity
    constructor
    · intro he
      have h1 : (x + 19 / 20) / (1 + (20 * (x + 19 / 20)) ^ 2) = -(1 / 40) := by linarith
      rw [div_eq_iff hd.ne'] at h1
      have h2 : (20 * (x + 19 / 20) + 1) ^ 2 = 0 := by nlinarith
      have h3 := pow_eq_zero_iff (two_ne_zero) |>.mp h2
      linarith
    · rintro rfl
      norm_num
  · constructor
    · intro he
      rcases lt_or_le (19 / 20 : α) x with h' | h'
      · have := (soft_clip_upper x (by unfold CLIP_THRESHOLD; norm_num; linarith)).1
        unfold CLIP_THRESHOLD at this
        rw [he] at this
        norm_num at this
      · rw [soft_clip_id x (by rw [abs_le]; unfold CLIP_THRESHOLD; norm_num; exact ⟨h, by linarith⟩)]
          at he
        rw [he] at h
        norm_num at h
    · rintro rfl
      norm_num at h

/-- From full scale on, a larger input gives a smaller output. -/
theorem soft_clip_strictAnti (a b : α) (ha : 1 ≤ a) (hab : a < b) :
    soft_clip b < soft_clip a := by
  rw [soft_clip_above a (by linarith), soft_clip_above b (by linarith)]
  have hda : (0 : α) < 1 + (20 * (a - 19 / 20)) ^ 2 := by positivity
  have hdb : (0 : α) < 1 + (20 * (b - 19 / 20)) ^ 2 := by positivity
  have : (b - 19 / 20) / (1 + (20 * (b - 19 / 20)) ^ 2) <
      (a - 19 / 20) / (1 + (20 * (a - 19 / 20)) ^ 2) := by
    rw [div_lt_div_iff₀ hdb hda]
    have h1 : 0 < b - a := by linarith
    have h2 : (1 : α) / 20 ≤ a - 19 / 20 := by linarith
    have h3 : (1 : α) / 20 < b - 19 / 20 := by linarith
    have h4 : (1 : α) / 400 < (a - 19 / 20) * (b - 19 / 20) := by nlinarith
    nlinarith
  linarith

/-- C19: `soft_clip` is not monotone: `|soft_clip x| ≤ 0.975` for every `x`,
with equality exactly at `x = 1` and `x = -1`, and on `[1, ∞)` it is strictly
decreasing while staying above the threshold 0.95, so a louder input above full
scale gives a quieter output. -/
theorem soft_clip_peak_then_falls (x a b : α) (ha : 1 ≤ a) (hab : a < b) :
    |soft_clip x| ≤ 0.975 ∧
    (|soft_clip x| = 0.975 ↔ x = 1 ∨ x = -1) ∧
    soft_clip b < soft_clip a ∧
    0.95 < soft_clip b := by
  have hb := soft_clip_abs_le x
  refine ⟨by norm_num at hb ⊢; exact hb, ?_, soft_clip_strictAnti a b ha hab, ?_⟩
  · have h975 : (0.975 : α) = 39 / 40 := by norm_num
    rw [h975]
    constructor
    · intro he
      rcases abs_eq (by norm_num : (0 : α) ≤ 39 / 40) |>.mp he with h | h
      · exact Or.inl ((soft_clip_eq_peak x).mp h)
      · exact Or.inr ((soft_clip_eq_trough x).mp h)
    · rintro (rfl | rfl)
      · rw [(soft_clip_eq_peak 1).mpr rfl]
        exact abs_of_pos (by norm_num)
      · rw [(soft_clip_eq_trough (-1)).mpr rfl, abs_neg]
        exact abs_of_pos (by norm_num)
  · have := (soft_clip_upper b (by unfold CLIP_THRESHOLD; norm_num; linarith)).1
    unfold CLIP_THRESHOLD at this
    exact this

/-- C19 at the inputs 1 and 2: the peak 0.975 at 1, and a smaller output at 2. -/
theorem soft_clip_peak_then_falls_witness :
    |soft_clip (1 : ℚ)| ≤ 0.975 ∧ soft_clip (2 : ℚ) < soft_clip (1 : ℚ) :=
  ⟨(soft_clip_peak_then_falls (1 : ℚ) 1 2 (le_refl 1) (by norm_num)).1,
    (soft_clip_peak_then_falls (1 : ℚ) 1 2 (le_refl 1) (by norm_num)).2.2.1⟩

end LimiterShape
section NoWrap

variable {α : Type} [LinearOrderedField α] [FloorRing α]

/-- Every sample a cycle leaves in the buffer is within `[-31948, 31948]`. -/
theorem limited_running_range (sin : α → α) (voices : Voices α) (i : Nat) :
    -31948 ≤ limited_running sin voices i ∧ limited_running sin voices i ≤ 31948 := by
  unfold limited_running
  have key : ∀ (l : List (Fin MAX_POLYPHONY)) (s0 : Int), -31948 ≤ s0 ∧ s0 ≤ 31948 →
      -31948 ≤ l.foldl (fun s v => if sounding (voices v) i then
          mix_sample α s (voice_sample sin (voice_at (voices v) i)) else s) s0 ∧
      l.foldl (fun s v => if sounding (voices v) i then
          mix_sample α s (voice_sample sin (voice_at (voices v) i)) else s) s0 ≤ 31948 := by
    intro l
    induction l with
    | nil => exact fun s0 h => h
    | cons v l ih =>
      intro s0 h
      rw [List.foldl_cons]
      apply ih
      split_ifs
      · exact (mix_sample_eq s0 _).2
      · exact h
  exact key _ 0 ⟨by norm_num, by norm_num⟩

/-- C17: mixing never wraps around in 16 bits: for every buffer sample `s` (a
16-bit value or any other) and every contribution `c` such that `s + c` fits in
32 bits, the value
`trunc(soft_clip((s + c) / 32767) * 32767)` lies within `[-32768, 32767]` and is
what the code stores back (the cast to `int16_t` changes nothing); so every
sample of a cycle, whatever the number of voices mixed, is within that range. -/
theorem mix_sample_fits_int16 (sin : α → α) (voices : Voices α) (i : Nat) (s c : Int)
    (hsc₁ : -2147483648 ≤ s + c) (hsc₂ : s + c ≤ 2147483647) :
    -32768 ≤ trunc (soft_clip (((s + c : Int) : α) / 32767) * 32767) ∧
    trunc (soft_clip (((s + c : Int) : α) / 32767) * 32767) ≤ 32767 ∧
    mix_sample α s c = trunc (soft_clip (((s + c : Int) : α) / 32767) * 32767) ∧
    -32768 ≤ limited_running sin voices i ∧ limited_running sin voices i ≤ 32767 := by
  obtain ⟨he, h1, h2⟩ := @mix_sample_eq α _ _ s c
  rw [wrap_signed_32_id _ hsc₁ hsc₂] at he
  have hm : ((MAX_VOLUME : Nat) : α) = 32767 := by norm_num [MAX_VOLUME]
  rw [hm] at he
  obtain ⟨r1, r2⟩ := limited_running_range sin voices i
  rw [← he]
  exact ⟨by omega, by omega, rfl, by omega, by omega⟩

/-- C17 for the sample 30000 and the contribution 30000, and for frame 0 of the
clash pool. -/
theorem mix_sample_fits_int16_witness :
    mix_sample ℝ 30000 30000 = trunc (soft_clip ((((30000 + 30000 : Int)) : ℝ) / 32767) * 32767) ∧
    limited_running Real.sin (clash_pool ℝ) 0 ≤ 32767 :=
  ⟨(mix_sample_fits_int16 Real.sin (clash_pool ℝ) 0 30000 30000 (by decide)
      (by decide)).2.2.1,
    (mix_sample_fits_int16 Real.sin (clash_pool ℝ) 0 30000 30000 (by decide)
      (by decide)).2.2.2.2⟩

end NoWrap
section PhaseRange

variable {α : Type} [LinearOrderedField α]

theorem PI_pos : (0 : α) < PI := by
  unfold PI
  norm_num

/-- With a phase increment in `[0, 2*PI]` one frame keeps the phase in
`[0, 2*PI)`. -/
theorem advance_phase_in_range (voice : Voice α) (h₀ : 0 ≤ voice.phase)
    (h₁ : voice.phase < 2 * PI) (hi₀ : 0 ≤ voice.phase_increment)
    (hi₁ : voice.phase_increment ≤ 2 * PI) :
    0 ≤ (advance voice).phase ∧ (advance voice).phase < 2 * PI := by
  simp only [advance]
  split_ifs with h
  · constructor <;> linarith
  · exact ⟨by linarith, not_le.mp h⟩

/-- The initial phase is in `[0, 2*PI]`, and below `2*PI` unless `rand()`
returns `RAND_MAX`. -/
theorem initial_phase_range (RAND_MAX r : Int) (old : Voice α) (freq duration : α)
    (harmonics : List α) (num_harmonics velocity : Int) (hR : 0 < RAND_MAX) (h₀ : 0 ≤ r)
    (h₁ : r ≤ RAND_MAX) :
    0 ≤ (init_voice RAND_MAX r old freq duration harmonics num_harmonics velocity).phase ∧
    (init_voice RAND_MAX r old freq duration harmonics num_harmonics velocity).phase ≤ 2 * PI ∧
    (r < RAND_MAX →
      (init_voice RAND_MAX r old freq duration harmonics num_harmonics velocity).phase
        < 2 * PI) := by
  have hp : (0 : α) < PI := PI_pos
  have hRa : (0 : α) < (RAND_MAX : α) := by exact_mod_cast hR
  have hq₀ : (0 : α) ≤ (r : α) / (RAND_MAX : α) :=
    div_nonneg (by exact_mod_cast h₀) hRa.le
  have hq₁ : (r : α) / (RAND_MAX : α) ≤ 1 := by
    rw [div_le_one hRa]
    exact_mod_cast h₁
  simp only [init_voice]
  refine ⟨by positivity, by nlinarith, fun hlt => ?_⟩
  have hq : (r : α) / (RAND_MAX : α) < 1 := by
    rw [div_lt_one hRa]
    exact_mod_cast hlt
  nlinarith

/-- C15 at `r = RAND_MAX = 2147483647`: the new voice starts with the phase
`2*PI` exactly, which is outside `[0, 2*PI)`. -/
theorem initial_phase_at_rand_max :
    ((play_tone 2147483647 2147483647 (Synth.init ℚ) 440 1 [1] 1 127).voices
      ⟨0, by decide⟩).phase = 2 * PI ∧
    ¬ ((play_tone 2147483647 2147483647 (Synth.init ℚ) 440 1 [1] 1 127).voices
      ⟨0, by decide⟩).phase < 2 * PI := by
  have h : ((play_tone 2147483647 2147483647 (Synth.init ℚ) 440 1 [1] 1 127).voices
      ⟨0, by decide⟩).phase = 2 * PI := by
    rw [play_tone_slot_zero _ _ _ _ _ _ _ _ rfl]
    simp only [Function.update_same, init_voice]
    norm_num
  exact ⟨h, by rw [h]; exact lt_irrefl _⟩

end PhaseRange

section PhaseWrap

/-- C14 at frequency 88200 Hz: the voice `play_tone` creates (with `rand()`
returning 0) has frequency `> 0` and phase 0, and after the one frame of a
one-frame cycle its phase is `2*PI` exactly, outside `[0, 2*PI)`: the increment
is `4*PI` and the wrap subtracts `2*PI` once. -/
theorem phase_wrap_misses_above_sample_rate :
    0 < ((play_tone 2147483647 0 (Synth.init ℝ) 88200 1 [1] 1 127).voices
      ⟨0, by decide⟩).frequency ∧
    ((play_tone 2147483647 0 (Synth.init ℝ) 88200 1 [1] 1 127).voices
      ⟨0, by decide⟩).phase = 0 ∧
    ((audio_callback_synth Real.sin
        (play_tone 2147483647 0 (Synth.init ℝ) 88200 1 [1] 1 127) 2).1.voices
      ⟨0, by decide⟩).phase = 2 * PI ∧
    ¬ ((audio_callback_synth Real.sin
        (play_tone 2147483647 0 (Synth.init ℝ) 88200 1 [1] 1 127) 2).1.voices
      ⟨0, by decide⟩).phase < 2 * PI := by
  have hp : (0 : ℝ) < PI := PI_pos
  rw [play_tone_slot_zero _ _ _ _ _ _ _ _ rfl, audio_callback_synth_voices, mix_voices_voices]
  simp only [Function.update_same]
  set nv := init_voice 2147483647 0 ((Synth.init ℝ).voices ⟨0, by decide⟩) (88200 : ℝ) 1 [1]
    (if (1 : Int) > MAX_HARMONICS then (MAX_HARMONICS : Int) else 1) 127 with hnv
  have hna : nv.active = true := rfl
  have hnf : nv.frequency = 88200 := rfl
  have hnp : nv.phase = 0 := by
    simp only [hnv, init_voice]
    norm_num
  have hni : nv.phase_increment = 4 * PI := by
    simp only [hnv, init_voice, SAMPLE_RATE]
    norm_num
    ring
  have hrun : ∀ k, k < 2 / 2 → (voice_at nv k).elapsedTime < nv.duration := by
    intro k hk
    have hk0 : k = 0 := by omega
    subst hk0
    show (0 : ℝ) < 1
    norm_num
  have hph : (frame_loop Real.sin (2 / 2) 0 nv (fun _ => 0)).1.phase = 2 * PI := by
    rw [frame_loop_runs Real.sin _ _ _ _ hrun]
    show (advance nv).phase = 2 * PI
    simp only [advance, hnp, hni, zero_add]
    rw [if_pos (by linarith)]
    ring
  rw [if_pos hna, hph]
  exact ⟨by rw [hnf]; norm_num, hnp, rfl, lt_irrefl _⟩

end PhaseWrap
section Truncation

variable {α : Type} [LinearOrderedField α] [FloorRing α]

theorem trunc_intCast (n : Int) : trunc ((n : Int) : α) = n := by
  unfold trunc
  split_ifs
  · exact Int.floor_intCast n
  · exact Int.ceil_intCast n

theorem trunc_eq_zero_iff (x : α) : trunc x = 0 ↔ |x| < 1 := by
  unfold trunc
  split_ifs with h
  · rw [Int.floor_eq_zero_iff, abs_of_nonneg h]
    exact ⟨fun hx => hx.2, fun hx => ⟨h, hx⟩⟩
  · have hneg : x < 0 := not_le.mp h
    rw [Int.ceil_eq_zero_iff, abs_of_neg hneg]
    constructor
    · intro hx
      have := hx.1
      linarith
    · intro hx
      exact ⟨by linarith, hneg.le⟩

/-- A contribution within the threshold, added to an empty sample, is stored
as it is. -/
theorem mix_sample_zero_small (c : Int) (h₁ : -31128 ≤ c) (h₂ : c ≤ 31128) :
    mix_sample α 0 c = c := by
  obtain ⟨he, -, -⟩ := @mix_sample_eq α _ _ 0 c
  rw [he, zero_add, wrap_signed_32_id _ (by omega) (by omega)]
  have hm : ((MAX_VOLUME : Nat) : α) = 32767 := by norm_num [MAX_VOLUME]
  have hc₁ : ((-31128 : Int) : α) ≤ (c : α) := by exact_mod_cast h₁
  have hc₂ : (c : α) ≤ ((31128 : Int) : α) := by exact_mod_cast h₂
  push_cast at hc₁ hc₂
  rw [hm, soft_clip_id]
  · rw [div_mul_cancel₀ _ (by norm_num : (32767 : α) ≠ 0)]
    exact trunc_intCast c
  · rw [abs_le]
    unfold CLIP_THRESHOLD
    constructor
    · rw [le_div_iff₀ (by norm_num)]
      norm_num
      linarith
    · rw [div_le_iff₀ (by norm_num)]
      norm_num
      linarith

end Truncation

section ShortNote

variable {α : Type} [LinearOrderedField α]

theorem voice_at_num_harmonics (voice : Voice α) (k : Nat) :
    (voice_at voice k).num_harmonics = voice.num_harmonics := by
  induction k generalizing voice with
  | zero => rfl
  | succ k ih => rw [← voice_at_succ, ih]; rfl

theorem voice_at_harmonic_weights (voice : Voice α) (k : Nat) :
    (voice_at voice k).harmonic_weights = voice.harmonic_weights := by
  induction k generalizing voice with
  | zero => rfl
  | succ k ih => rw [← voice_at_succ, ih]; rfl

/-- The harmonic sum of a voice with one harmonic of weight 1. -/
theorem harmonic_sum_pure_sine (sin : α → α) (voice : Voice α) (hn : voice.num_harmonics = 1)
    (hw : voice.harmonic_weights ⟨0, by decide⟩ = 1) :
    harmonic_sum sin voice = sin voice.phase := by
  have h0 : voice.weight 0 = 1 := by
    simp only [Voice.weight]
    rw [dif_pos (by decide)]
    exact hw
  simp only [harmonic_sum, hn]
  have : (1 : Int).toNat = 1 := rfl
  rw [this, List.range_succ, List.range_zero]
  simp [h0]

/-- The voice of the end-to-end example, as `play_tone` sets it up. -/
theorem end_to_end_voice (RAND_MAX r : Int) (old : Voice α) :
    (init_voice RAND_MAX r old (440 : α) 0.01 [1.0]
      (if (1 : Int) > MAX_HARMONICS then (MAX_HARMONICS : Int) else 1) 127).num_harmonics = 1 ∧
    (init_voice RAND_MAX r old (440 : α) 0.01 [1.0]
      (if (1 : Int) > MAX_HARMONICS then (MAX_HARMONICS : Int) else 1) 127).harmonic_weights
        ⟨0, by decide⟩ = 1 := by
  have hn : (if (1 : Int) > MAX_HARMONICS then (MAX_HARMONICS : Int) else 1) = 1 := by
    simp [MAX_HARMONICS]
  rw [hn]
  refine ⟨rfl, ?_⟩
  simp only [init_voice]
  rw [scale_weights_apply]
  norm_num

/-- The envelope of a voice started at the beginning of the cycle: 0 at frame
0, positive and at most 1 at the frames 1 to 440 (attack and decay). -/
theorem end_to_end_envelope (voice : Voice α) (he : voice.elapsedTime = 0) (i : Nat)
    (hi : i ≤ 440) :
    (i = 0 → adsr_envelope (voice_at voice i) = 0) ∧
    (1 ≤ i → 0 < adsr_envelope (voice_at voice i)) ∧
    0 ≤ adsr_envelope (voice_at voice i) ∧ adsr_envelope (voice_at voice i) ≤ 1 := by
  have ht : (voice_at voice i).elapsedTime = (i : α) / 44100 := by
    rw [voice_at_elapsedTime, he, zero_add]
    norm_num [SAMPLE_RATE]
  have hi' : (i : α) ≤ 440 := by exact_mod_cast hi
  have hi0 : (0 : α) ≤ (i : α) := Nat.cast_nonneg i
  have key : (i = 0 → adsr_envelope (voice_at voice i) = 0) ∧
      (1 ≤ i → 0 < adsr_envelope (voice_at voice i)) ∧ adsr_envelope (voice_at voice i) ≤ 1 := by
    unfold adsr_envelope
    simp only [ht, ATTACK_TIME, DECAY_TIME, SUSTAIN_LEVEL, RELEASE_TIME]
    have hdec : (i : α) / 44100 < 0.001 + 0.04 := by
      rw [div_lt_iff₀ (by norm_num)]
      norm_num
      linarith
    split_ifs with h1
    · refine ⟨fun h => by rw [h]; simp, fun h => ?_, ?_⟩
      · have : (1 : α) ≤ (i : α) := by exact_mod_cast h
        apply div_pos (div_pos (by linarith) (by norm_num)) (by norm_num)
      · rw [div_le_one (by norm_num)]
        exact h1.le
    · have h1' : (0.001 : α) ≤ (i : α) / 44100 := not_lt.mp h1
      have hq₀ : (0 : α) ≤ ((i : α) / 44100 - 0.001) / 0.04 :=
        div_nonneg (by linarith) (by norm_num)
      have hq₁ : ((i : α) / 44100 - 0.001) / 0.04 ≤ 1 / 4 := by
        rw [div_le_iff₀ (by norm_num)]
        have : (i : α) / 44100 ≤ 440 / 44100 := by
          apply div_le_div_of_nonneg_right hi' (by norm_num)
        norm_num at this ⊢
        linarith
      refine ⟨fun h => ?_, fun _ => ?_, ?_⟩
      · exfalso
        rw [h] at h1'
        norm_num at h1'
      · norm_num at hq₀ hq₁ ⊢
        nlinarith
      · norm_num at hq₀ hq₁ ⊢
        nlinarith
  refine ⟨key.1, key.2.1, ?_, key.2.2⟩
  rcases Nat.eq_zero_or_pos i with h | h
  · rw [key.1 h]
  · exact (key.2.1 h).le

variable [FloorRing α]

/-- With slot 0 the only one that sounds at frame `j`, the sample is the stored
contribution of slot 0. -/
theorem limited_running_first_only (sin : α → α) (voices : Voices α) (j : Nat)
    (h₀ : sounding (voices ⟨0, by decide⟩) j = true)
    (h : ∀ u, u ≠ ⟨0, by decide⟩ → sounding (voices u) j = false) :
    limited_running sin voices j =
      mix_sample α 0 (voice_sample sin (voice_at (voices ⟨0, by decide⟩) j)) := by
  have hnd := List.nodup_finRange MAX_POLYPHONY
  unfold limited_running
  rw [finRange_polyphony] at hnd ⊢
  rw [List.foldl_cons, h₀, if_pos rfl]
  have hnot := (List.nodup_cons.mp hnd).1
  generalize mix_sample α 0 (voice_sample sin (voice_at (voices ⟨0, by decide⟩) j)) = m
  have key : ∀ (l : List (Fin MAX_POLYPHONY)), (∀ u ∈ l, sounding (voices u) j = false) →
      l.foldl (fun s v => if sounding (voices v) j then
        mix_sample α s (voice_sample sin (voice_at (voices v) j)) else s) m = m := by
    intro l
    induction l with
    | nil => exact fun _ => rfl
    | cons v l ih =>
      intro hl
      rw [List.foldl_cons, hl v (List.mem_cons_self _ _)]
      simpa using ih (fun u hu => hl u (List.mem_cons_of_mem _ hu))
  apply key
  intro u hu
  apply h
  rintro rfl
  exact hnot hu

/-- The samples of the end-to-end example before the 10 ms point, for a `sin`
bounded by 1: the truncated product of sine, envelope and 2047. -/
theorem end_to_end_sample (sin : α → α) (hsin : ∀ x, |sin x| ≤ 1) (RAND_MAX r : Int)
    (s : Synth α) (h : ∀ v, (s.voices v).active = false) (i : Nat) (hi : i ≤ 440) :
    (audio_callback_synth sin (end_to_end_note RAND_MAX r s) 2048).2[i]? =
      some (trunc
        (sin (voice_at ((end_to_end_note RAND_MAX r s).voices ⟨0, by decide⟩) i).phase *
          adsr_envelope (voice_at ((end_to_end_note RAND_MAX r s).voices ⟨0, by decide⟩) i) *
          2047)) := by
  unfold end_to_end_note
  rw [audio_callback_synth_samples]
  have hi2 : i < 2048 / 2 := by omega
  simp only [List.getElem?_map, List.getElem?_range hi2, Option.map_some']
  rw [play_tone_slot_zero _ _ _ _ _ _ _ _ (h _)]
  simp only [Function.update_same]
  set nv := init_voice RAND_MAX r (s.voices ⟨0, by decide⟩) (440 : α) 0.01 [1.0]
    (if (1 : Int) > MAX_HARMONICS then (MAX_HARMONICS : Int) else 1) 127 with hnv
  obtain ⟨hn, hw⟩ := end_to_end_voice RAND_MAX r (s.voices ⟨0, by decide⟩)
  rw [← hnv] at hn hw
  have hna : nv.active = true := rfl
  have hnd : nv.duration = 0.01 := rfl
  have hne : nv.elapsedTime = 0 := rfl
  obtain ⟨-, -, henv₀, henv₁⟩ := end_to_end_envelope nv hne i hi
  have hs0 : sounding (Function.update s.voices ⟨0, by decide⟩ nv ⟨0, by decide⟩) i = true := by
    rw [Function.update_same]
    simp only [sounding, hna, Bool.true_and, decide_eq_true_eq, voice_at_duration, hnd]
    rw [voice_at_elapsedTime, hne, zero_add]
    have : (i : α) ≤ 440 := by exact_mod_cast hi
    rw [div_lt_iff₀ (by norm_num [SAMPLE_RATE])]
    norm_num [SAMPLE_RATE]
    linarith
  have hrest : ∀ u, u ≠ ⟨0, by decide⟩ →
      sounding (Function.update s.voices ⟨0, by decide⟩ nv u) i = false := by
    intro u hu
    rw [Function.update_noteq hu]
    exact sounding_of_inactive _ i (h u)
  rw [limited_running_first_only sin _ i hs0 hrest, Function.update_same]
  have hhs : harmonic_sum sin (voice_at nv i) = sin (voice_at nv i).phase :=
    harmonic_sum_pure_sine sin _ (by rw [voice_at_num_harmonics, hn])
      (by rw [voice_at_harmonic_weights, hw])
  have hk : (((MAX_VOLUME / MAX_POLYPHONY : Nat) : α)) = 2047 := by
    norm_num [MAX_VOLUME, MAX_POLYPHONY]
  simp only [voice_sample, hhs, hk]
  set x := sin (voice_at nv i).phase * adsr_envelope (voice_at nv i) * 2047 with hx
  have hab := abs_le.mp (hsin (voice_at nv i).phase)
  have hx₁ : x ≤ ((2047 : Int) : α) := by
    push_cast
    rw [hx]
    nlinarith [hab.1, hab.2]
  have hx₂ : ((-2047 : Int) : α) ≤ x := by
    push_cast
    rw [hx]
    nlinarith [hab.1, hab.2]
  have ht₁ := trunc_le x _ hx₁
  have ht₂ := le_trunc x _ hx₂
  rw [to_int32_of_fits x (by omega) (by omega), mix_sample_zero_small _ (by omega) (by omega)]

/-- C16, as stated, fails: in the end-to-end example (start-up state, `rand()`
returning 12345) the sample at frame index 0 is 0, the envelope being 0 at
`elapsedTime` 0. -/
theorem end_to_end_first_sample_zero :
    (audio_callback_synth Real.sin (end_to_end_note 2147483647 12345 (Synth.init ℝ))
      2048).2[0]? = some 0 := by
  rw [end_to_end_sample Real.sin Real.abs_sin_le_one 2147483647 12345 (Synth.init ℝ)
    (fun _ => rfl) 0 (by decide)]
  have henv := (end_to_end_envelope
    ((end_to_end_note 2147483647 12345 (Synth.init ℝ)).voices ⟨0, by decide⟩)
    (by
      unfold end_to_end_note
      rw [play_tone_slot_zero _ _ _ _ _ _ _ _ rfl]
      rfl) 0 (by decide)).1 rfl
  rw [henv, mul_zero, zero_mul]
  simp [trunc]

/-- C16, amended: in the end-to-end example (pool without active voice,
`play_tone(440.0, 0.01, [1.0], velocity 127)`, one 1024-frame cycle at 44100 Hz,
`sin` bounded by 1), the sample at each frame index `i` from 0 to 440 is
`trunc(sin(phase_i) * env_i * 2047)`; it is 0 at index 0, where the envelope is
0; at the indices 1 to 440 the envelope is positive, and the sample is nonzero
exactly when `|sin(phase_i) * env_i * 2047| ≥ 1`. -/
theorem end_to_end_samples_before_441 (sin : α → α) (hsin : ∀ x, |sin x| ≤ 1)
    (RAND_MAX r : Int) (s : Synth α) (h : ∀ v, (s.voices v).active = false) (i : Nat)
    (hi : i ≤ 440) :
    (audio_callback_synth sin (end_to_end_note RAND_MAX r s) 2048).2[i]? =
      some (trunc
        (sin (voice_at ((end_to_end_note RAND_MAX r s).voices ⟨0, by decide⟩) i).phase *
          adsr_envelope (voice_at ((end_to_end_note RAND_MAX r s).voices ⟨0, by decide⟩) i) *
          2047)) ∧
    (i = 0 →
      (audio_callback_synth sin (end_to_end_note RAND_MAX r s) 2048).2[i]? = some 0) ∧
    (1 ≤ i →
      0 < adsr_envelope (voice_at ((end_to_end_note RAND_MAX r s).voices ⟨0, by decide⟩) i)) ∧
    (trunc
        (sin (voice_at ((end_to_end_note RAND_MAX r s).voices ⟨0, by decide⟩) i).phase *
          adsr_envelope (voice_at ((end_to_end_note RAND_MAX r s).voices ⟨0, by decide⟩) i) *
          2047) ≠ 0 ↔
      1 ≤ |sin (voice_at ((end_to_end_note RAND_MAX r s).voices ⟨0, by decide⟩) i).phase *
          adsr_envelope (voice_at ((end_to_end_note RAND_MAX r s).voices ⟨0, by decide⟩) i) *
          2047|) := by
  have hs := end_to_end_sample sin hsin RAND_MAX r s h i hi
  have he0 : ((end_to_end_note RAND_MAX r s).voices ⟨0, by decide⟩).elapsedTime = 0 := by
    unfold end_to_end_note
    rw [play_tone_slot_zero _ _ _ _ _ _ _ _ (h _)]
    simp only [Function.update_same]
    rfl
  obtain ⟨e0, e1, -, -⟩ :=
    end_to_end_envelope ((end_to_end_note RAND_MAX r s).voices ⟨0, by decide⟩) he0 i hi
  refine ⟨hs, fun hi0 => ?_, e1, ?_⟩
  · rw [hs, e0 hi0, mul_zero, zero_mul]
    simp [trunc]
  · rw [Ne, trunc_eq_zero_iff, not_lt]

/-- The amended C16 at frame 100, from the start-up state. -/
theorem end_to_end_samples_before_441_witness :
    0 < adsr_envelope
      (voice_at ((end_to_end_note 2147483647 12345 (Synth.init ℝ)).voices ⟨0, by decide⟩) 100) :=
  (end_to_end_samples_before_441 Real.sin Real.abs_sin_le_one 2147483647 12345 (Synth.init ℝ)
    (fun _ => rfl) 100 (by decide)).2.2.1 (by decide)

end ShortNote
section ExplicitMix

variable {α : Type} [LinearOrderedField α]

/-- The harmonic loop computes the sum of the weighted partials. -/
theorem harmonic_sum_eq_sum (sin : α → α) (voice : Voice α) :
    harmonic_sum sin voice =
      Finset.sum (Finset.range voice.num_harmonics.toNat)
        (fun h => voice.weight h * sin (((h : α) + 1) * voice.phase)) := by
  unfold harmonic_sum
  generalize voice.num_harmonics.toNat = n
  induction n with
  | zero => simp
  | succ n ih =>
    rw [List.range_succ, List.foldl_append, List.foldl_cons, List.foldl_nil, ih,
      Finset.sum_range_succ]
    push_cast
    rfl

theorem voice_at_weight (voice : Voice α) (k h : Nat) :
    (voice_at voice k).weight h = voice.weight h := by
  simp only [Voice.weight, voice_at_harmonic_weights]

/-- The test of the frame loop at frame `i`, in terms of the voice at the start
of the cycle. -/
theorem sounding_iff (voice : Voice α) (i : Nat) :
    sounding voice i = true ↔
      voice.active = true ∧ voice.elapsedTime + (i : α) / 44100 < voice.duration := by
  simp only [sounding, Bool.and_eq_true, decide_eq_true_eq, voice_at_duration,
    voice_at_elapsedTime]
  norm_num [SAMPLE_RATE]

/-- The harmonic sum at frame `i` of a cycle, over the weights of the voice. -/
theorem harmonic_sum_at (sin : α → α) (voice : Voice α) (i : Nat) :
    harmonic_sum sin (voice_at voice i) =
      Finset.sum (Finset.range voice.num_harmonics.toNat)
        (fun h => voice.weight h * sin (((h : α) + 1) * (voice_at voice i).phase)) := by
  rw [harmonic_sum_eq_sum, voice_at_num_harmonics]
  apply Finset.sum_congr rfl
  intro h _
  rw [voice_at_weight]

variable [FloorRing α]

/-- A value of absolute value at most 2147450000 truncates within that bound. -/
theorem trunc_abs_le (x : α) (h : |x| ≤ 2147450000) :
    -2147450000 ≤ trunc x ∧ trunc x ≤ 2147450000 := by
  have hx := abs_le.mp h
  have hx₂ : x ≤ ((2147450000 : Int) : α) := by
    push_cast
    exact hx.2
  have hx₁ : ((-2147450000 : Int) : α) ≤ x := by
    push_cast
    exact hx.1
  exact ⟨le_trunc _ _ hx₁, trunc_le _ _ hx₂⟩

/-- The limiter output, scaled to 32767 and truncated, is within
`[-31948, 31948]`. -/
theorem stored_sample_range (y : α) :
    -31948 ≤ trunc (soft_clip y * 32767) ∧ trunc (soft_clip y * 32767) ≤ 31948 := by
  have hb := abs_le.mp (soft_clip_abs_le y)
  constructor
  · apply le_trunc
    push_cast
    nlinarith [hb.1]
  · apply trunc_le
    push_cast
    nlinarith [hb.2]

/-- Interchange of the two loops, for a mixing step and voice amounts that are
what the hypotheses `hmix` and `hamt` say: where every sounding voice's amount
fits in `int32_t`, the fold of the code's step over the slots is the fold of
`m ↦ trunc(soft_clip((m + c) / 32767) * 32767)`. -/
theorem running_mix_explicit (sin : α → α) (voices : Voices α) (i : Nat)
    (hmix : ∀ m c : Int, -31948 ≤ m → m ≤ 31948 → -2147450000 ≤ c → c ≤ 2147450000 →
      mix_sample α m c = trunc (soft_clip (((m + c : Int) : α) / 32767) * 32767))
    (hamt : ∀ voice : Voice α,
      |adsr_envelope (voice_at voice i) *
        Finset.sum (Finset.range voice.num_harmonics.toNat)
          (fun h => voice.weight h * sin (((h : α) + 1) * (voice_at voice i).phase)) *
        2047| ≤ 2147450000 →
      voice_sample sin (voice_at voice i) =
        trunc (adsr_envelope (voice_at voice i) *
          Finset.sum (Finset.range voice.num_harmonics.toNat)
            (fun h => voice.weight h * sin (((h : α) + 1) * (voice_at voice i).phase)) * 2047))
    (l : List (Fin MAX_POLYPHONY)) (m₀ : Int) (hm₀ : -31948 ≤ m₀ ∧ m₀ ≤ 31948)
    (hfit : ∀ v ∈ l, (voices v).active = true →
      (voices v).elapsedTime + (i : α) / 44100 < (voices v).duration →
      |adsr_envelope (voice_at (voices v) i) *
        Finset.sum (Finset.range (voices v).num_harmonics.toNat)
          (fun h => (voices v).weight h * sin (((h : α) + 1) * (voice_at (voices v) i).phase)) *
        2047| ≤ 2147450000) :
    l.foldl (fun s v => if sounding (voices v) i then
        mix_sample α s (voice_sample sin (voice_at (voices v) i)) else s) m₀ =
      l.foldl (fun m v =>
        if (voices v).active = true ∧
            (voices v).elapsedTime + (i : α) / 44100 < (voices v).duration then
          trunc (soft_clip (((m + trunc (adsr_envelope (voice_at (voices v) i) *
            Finset.sum (Finset.range (voices v).num_harmonics.toNat)
              (fun h => (voices v).weight h *
                sin (((h : α) + 1) * (voice_at (voices v) i).phase)) * 2047) : Int) : α) /
            32767) * 32767)
        else m) m₀ := by
  induction l generalizing m₀ with
  | nil => rfl
  | cons v l ih =>
    rw [List.foldl_cons, List.foldl_cons]
    by_cases hs : sounding (voices v) i = true
    · have hs' := (sounding_iff (voices v) i).mp hs
      have hf := hfit v (List.mem_cons_self _ _) hs'.1 hs'.2
      have hc := hamt (voices v) hf
      obtain ⟨hc₁, hc₂⟩ := trunc_abs_le _ hf
      have he := hmix m₀ _ hm₀.1 hm₀.2 hc₁ hc₂
      rw [hs, if_pos rfl, if_pos hs', hc, he]
      exact ih _ (stored_sample_range _) (fun u hu => hfit u (List.mem_cons_of_mem _ hu))
    · have hs' : ¬ ((voices v).active = true ∧
          (voices v).elapsedTime + (i : α) / 44100 < (voices v).duration) :=
        fun h => hs ((sounding_iff (voices v) i).mpr h)
      rw [if_neg hs, if_neg hs']
      exact ih _ hm₀ (fun u hu => hfit u (List.mem_cons_of_mem _ hu))

end ExplicitMix
section RunningMixClaim

variable {α : Type} [LinearOrderedField α] [FloorRing α]

/-- In the clash pool the amount of every active voice at frame 0 fits in
`int32_t`. -/
theorem clash_pool_fits (v : Fin MAX_POLYPHONY) (hact : (clash_pool ℝ v).active = true) :
    |adsr_envelope (voice_at (clash_pool ℝ v) 0) *
      Finset.sum (Finset.range (clash_pool ℝ v).num_harmonics.toNat)
        (fun h => (clash_pool ℝ v).weight h *
          Real.sin (((h : ℝ) + 1) * (voice_at (clash_pool ℝ v) 0).phase)) *
      2047| ≤ 2147450000 := by
  have hb := abs_le.mp (Real.abs_sin_le_one 1)
  have hw : ∀ w : ℝ, |w| ≤ 200 →
      |adsr_envelope (voice_at (sustained_voice w) 0) *
        Finset.sum (Finset.range (sustained_voice w).num_harmonics.toNat)
          (fun h => (sustained_voice w).weight h *
            Real.sin (((h : ℝ) + 1) * (voice_at (sustained_voice w) 0).phase)) *
        2047| ≤ 2147450000 := by
    intro w hw
    have hn : (sustained_voice w).num_harmonics.toNat = 1 := rfl
    have hw0 : (sustained_voice w).weight 0 = w := by
      simp [Voice.weight, sustained_voice, MAX_HARMONICS]
    have hp' : (sustained_voice w).phase = 1 := rfl
    rw [voice_at_zero, sustained_voice_envelope, hn, Finset.sum_range_one, hw0, hp']
    norm_num
    have hw' := abs_le.mp hw
    rw [abs_le]
    constructor <;> nlinarith [hb.1, hb.2, hw'.1, hw'.2]
  by_cases h0 : v.val = 0
  · have : clash_pool ℝ v = sustained_voice 200 := by
      unfold clash_pool
      rw [if_pos h0]
    rw [this]
    exact hw 200 (by norm_num)
  · by_cases h1 : v.val = 1
    · have : clash_pool ℝ v = sustained_voice (-200) := by
        unfold clash_pool
        rw [if_neg h0, if_pos h1]
      rw [this]
      exact hw (-200) (by norm_num)
    · have : clash_pool ℝ v = ⟨false, 0, 0, 0, 0, 0, 0, fun _ => 0⟩ := by
        unfold clash_pool
        rw [if_neg h0, if_neg h1]
      rw [this] at hact
      exact absurd hact (by simp)

/-- C3, amended: for every voice pool and every frame `i` of a render cycle at
which the amount `env * sum_h weight[h] * sin((h+1) * phase) * 2047` of each
voice still sounding fits in `int32_t` (absolute value at most 2147450000), the
sample the cycle leaves at index `i` is obtained from 0 by taking the voices
still sounding at frame `i` (active, `elapsedTime + i/44100 < duration`) in slot
order and replacing the running value `m` by
`trunc(soft_clip((m + c) / 32767) * 32767)`, `c` being the truncated amount of
that voice: the limiter is applied after each voice's addition, to the running
mix, and not once to the final sum. -/
theorem render_limits_running_mix (sin : α → α) (s : Synth α) (cap : Nat) (i : Nat)
    (hi : i < cap / 2)
    (hfit : ∀ v, (s.voices v).active = true →
      (s.voices v).elapsedTime + (i : α) / 44100 < (s.voices v).duration →
      |adsr_envelope (voice_at (s.voices v) i) *
        Finset.sum (Finset.range (s.voices v).num_harmonics.toNat)
          (fun h => (s.voices v).weight h *
            sin (((h : α) + 1) * (voice_at (s.voices v) i).phase)) *
        2047| ≤ 2147450000) :
    (audio_callback_synth sin s cap).2.length = cap / 2 ∧
    (audio_callback_synth sin s cap).2[i]? =
      some ((List.finRange MAX_POLYPHONY).foldl (fun m v =>
        if (s.voices v).active = true ∧
            (s.voices v).elapsedTime + (i : α) / 44100 < (s.voices v).duration then
          trunc (soft_clip (((m + trunc (adsr_envelope (voice_at (s.voices v) i) *
            Finset.sum (Finset.range (s.voices v).num_harmonics.toNat)
              (fun h => (s.voices v).weight h *
                sin (((h : α) + 1) * (voice_at (s.voices v) i).phase)) * 2047) : Int) : α) /
            32767) * 32767)
        else m) 0) := by
  have hmix : ∀ m c : Int, -31948 ≤ m → m ≤ 31948 → -2147450000 ≤ c → c ≤ 2147450000 →
      mix_sample α m c = trunc (soft_clip (((m + c : Int) : α) / 32767) * 32767) := by
    intro m c h₁ h₂ h₃ h₄
    have hm : ((MAX_VOLUME : Nat) : α) = 32767 := by norm_num [MAX_VOLUME]
    have hr := stored_sample_range (((m + c : Int) : α) / 32767)
    simp only [mix_sample, to_int16, hm]
    rw [wrap_signed_32_id _ (by omega) (by omega)]
    exact wrap_signed_16_id _ (by omega) (by omega)
  have hamt : ∀ (k : Nat) (voice : Voice α),
      |adsr_envelope (voice_at voice k) *
        Finset.sum (Finset.range voice.num_harmonics.toNat)
          (fun h => voice.weight h * sin (((h : α) + 1) * (voice_at voice k).phase)) *
        2047| ≤ 2147450000 →
      voice_sample sin (voice_at voice k) =
        trunc (adsr_envelope (voice_at voice k) *
          Finset.sum (Finset.range voice.num_harmonics.toNat)
            (fun h => voice.weight h * sin (((h : α) + 1) * (voice_at voice k).phase)) *
          2047) := by
    intro k voice hf
    have hk : (((MAX_VOLUME / MAX_POLYPHONY : Nat) : α)) = 2047 := by
      norm_num [MAX_VOLUME, MAX_POLYPHONY]
    obtain ⟨hb₁, hb₂⟩ := trunc_abs_le _ hf
    simp only [voice_sample, hk]
    rw [harmonic_sum_at, mul_comm (Finset.sum _ _) (adsr_envelope (voice_at voice k))]
    exact to_int32_of_fits _ (by omega) (by omega)
  rw [audio_callback_synth_samples]
  refine ⟨by simp, ?_⟩
  simp only [List.getElem?_map, List.getElem?_range hi, Option.map_some']
  congr 1
  unfold limited_running
  exact running_mix_explicit sin s.voices i hmix (hamt i) _ 0 ⟨by norm_num, by norm_num⟩
    (fun v _ => hfit v)

/-- The amended C3 at frame 0 of a one-frame cycle over the clash pool (two
sounding voices of weights 200 and -200). -/
theorem render_limits_running_mix_witness :
    (audio_callback_synth Real.sin (⟨clash_pool ℝ, none, 0, false⟩ : Synth ℝ) 2).2[0]? =
      some ((List.finRange MAX_POLYPHONY).foldl (fun m v =>
        if (clash_pool ℝ v).active = true ∧
            (clash_pool ℝ v).elapsedTime + ((0 : Nat) : ℝ) / 44100 < (clash_pool ℝ v).duration then
          trunc (soft_clip (((m + trunc (adsr_envelope (voice_at (clash_pool ℝ v) 0) *
            Finset.sum (Finset.range (clash_pool ℝ v).num_harmonics.toNat)
              (fun h => (clash_pool ℝ v).weight h *
                Real.sin (((h : ℝ) + 1) * (voice_at (clash_pool ℝ v) 0).phase)) * 2047) : Int) : ℝ) /
            32767) * 32767)
        else m) 0) :=
  (render_limits_running_mix Real.sin (⟨clash_pool ℝ, none, 0, false⟩ : Synth ℝ) 2 0
    (by decide) (fun v hact _ => clash_pool_fits v hact)).2

end RunningMixClaim
section RetirementClaim

variable {α : Type} [LinearOrderedField α] [FloorRing α]

/-- A sample of a cycle, written out, when the slot `v` does not sound at that
frame: the running mix over the other slots (for a mixing step and voice
amounts as the hypotheses `hmix` and `hamt` say). -/
theorem cycle_sample_skipping (sin : α → α) (t : Synth α) (cap j : Nat) (hj : j < cap / 2)
    (hmix : ∀ m c : Int, -31948 ≤ m → m ≤ 31948 → -2147450000 ≤ c → c ≤ 2147450000 →
      mix_sample α m c = trunc (soft_clip (((m + c : Int) : α) / 32767) * 32767))
    (hamt : ∀ voice : Voice α,
      |adsr_envelope (voice_at voice j) *
        Finset.sum (Finset.range voice.num_harmonics.toNat)
          (fun h => voice.weight h * sin (((h : α) + 1) * (voice_at voice j).phase)) *
        2047| ≤ 2147450000 →
      voice_sample sin (voice_at voice j) =
        trunc (adsr_envelope (voice_at voice j) *
          Finset.sum (Finset.range voice.num_harmonics.toNat)
            (fun h => voice.weight h * sin (((h : α) + 1) * (voice_at voice j).phase)) * 2047))
    (v : Fin MAX_POLYPHONY) (hv : sounding (t.voices v) j = false)
    (hfit : ∀ u, (t.voices u).active = true →
      (t.voices u).elapsedTime + (j : α) / 44100 < (t.voices u).duration →
      |adsr_envelope (voice_at (t.voices u) j) *
        Finset.sum (Finset.range (t.voices u).num_harmonics.toNat)
          (fun h => (t.voices u).weight h *
            sin (((h : α) + 1) * (voice_at (t.voices u) j).phase)) *
        2047| ≤ 2147450000) :
    (audio_callback_synth sin t cap).2[j]? =
      some ((List.finRange MAX_POLYPHONY).foldl (fun m u =>
        if u ≠ v ∧ (t.voices u).active = true ∧
            (t.voices u).elapsedTime + (j : α) / 44100 < (t.voices u).duration then
          trunc (soft_clip (((m + trunc (adsr_envelope (voice_at (t.voices u) j) *
            Finset.sum (Finset.range (t.voices u).num_harmonics.toNat)
              (fun h => (t.voices u).weight h *
                sin (((h : α) + 1) * (voice_at (t.voices u) j).phase)) * 2047) : Int) : α) /
            32767) * 32767)
        else m) 0) := by
  rw [audio_callback_synth_samples]
  simp only [List.getElem?_map, List.getElem?_range hj, Option.map_some']
  congr 1
  unfold limited_running
  rw [running_mix_explicit sin t.voices j hmix hamt _ 0 ⟨by norm_num, by norm_num⟩
    (fun u _ => hfit u)]
  apply List.foldl_ext
  intro m u _
  by_cases huv : u = v
  · subst huv
    have hn : ¬ ((t.voices u).active = true ∧
        (t.voices u).elapsedTime + (j : α) / 44100 < (t.voices u).duration) := by
      intro h
      have := (sounding_iff (t.voices u) j).mpr h
      rw [hv] at this
      exact absurd this (by simp)
    rw [if_neg hn, if_neg (fun h => h.1 rfl)]
  · by_cases hc : (t.voices u).active = true ∧
        (t.voices u).elapsedTime + (j : α) / 44100 < (t.voices u).duration
    · rw [if_pos hc, if_pos ⟨huv, hc⟩]
    · rw [if_neg hc, if_neg (fun h => hc h.2)]

/-- An active voice whose time is not up at any frame of the cycle comes out
of it advanced by all its frames. -/
theorem audio_callback_synth_runs (sin : α → α) (s : Synth α) (cap : Nat)
    (u : Fin MAX_POLYPHONY) (hact : (s.voices u).active = true)
    (hrun : ∀ k, k < cap / 2 →
      (s.voices u).elapsedTime + (k : α) / 44100 < (s.voices u).duration) :
    (audio_callback_synth sin s cap).1.voices u = voice_at (s.voices u) (cap / 2) := by
  rw [audio_callback_synth_voices, mix_voices_voices, if_pos hact]
  apply frame_loop_runs
  intro k hk
  have := hrun k hk
  rw [voice_at_elapsedTime]
  norm_num [SAMPLE_RATE]
  exact this

end RetirementClaim
section RetirementStatement

/-- The amount of a sustained voice of weight at most 200 fits in `int32_t`. -/
theorem sustained_voice_fits (w : ℝ) (hw : |w| ≤ 200) :
    |adsr_envelope (voice_at (sustained_voice w) 0) *
      Finset.sum (Finset.range (sustained_voice w).num_harmonics.toNat)
        (fun h => (sustained_voice w).weight h *
          Real.sin (((h : ℝ) + 1) * (voice_at (sustained_voice w) 0).phase)) *
      2047| ≤ 2147450000 := by
  have hb := abs_le.mp (Real.abs_sin_le_one 1)
  have hn : (sustained_voice w).num_harmonics.toNat = 1 := rfl
  have hw0 : (sustained_voice w).weight 0 = w := by
    simp [Voice.weight, sustained_voice, MAX_HARMONICS]
  have hp' : (sustained_voice w).phase = 1 := rfl
  rw [voice_at_zero, sustained_voice_envelope, hn, Finset.sum_range_one, hw0, hp']
  norm_num
  have hw' := abs_le.mp hw
  rw [abs_le]
  constructor <;> nlinarith [hb.1, hb.2, hw'.1, hw'.2]

/-- In the retire pool the amount of every voice sounding at frame 0 fits in
`int32_t`. -/
theorem retire_pool_fits (u : Fin MAX_POLYPHONY) (hact : (retire_pool ℝ u).active = true)
    (hs : (retire_pool ℝ u).elapsedTime + ((0 : Nat) : ℝ) / 44100 < (retire_pool ℝ u).duration) :
    |adsr_envelope (voice_at (retire_pool ℝ u) 0) *
      Finset.sum (Finset.range (retire_pool ℝ u).num_harmonics.toNat)
        (fun h => (retire_pool ℝ u).weight h *
          Real.sin (((h : ℝ) + 1) * (voice_at (retire_pool ℝ u) 0).phase)) *
      2047| ≤ 2147450000 := by
  by_cases h0 : u.val = 0
  · exfalso
    unfold retire_pool at hs
    rw [if_pos h0] at hs
    norm_num at hs
  · by_cases h1 : u.val = 1
    · have : retire_pool ℝ u = sustained_voice 200 := by
        unfold retire_pool
        rw [if_neg h0, if_pos h1]
      rw [this]
      exact sustained_voice_fits 200 (by norm_num)
    · have : retire_pool ℝ u = ⟨false, 0, 0, 0, 0, 0, 0, fun _ => 0⟩ := by
        unfold retire_pool
        rw [if_neg h0, if_neg h1]
      rw [this] at hact
      exact absurd hact (by simp)

variable {α : Type} [LinearOrderedField α] [FloorRing α]

/-- C6: a voice `v` that is active at the start of a render cycle and whose
`elapsedTime` is `≥ duration` at frame `i < frameCount` (after `i` time
advances; `i = 0` is the start of the cycle) is inactive when the cycle ends.
It adds nothing at the indices `≥ i`: each such sample is the running mix
`m ↦ trunc(soft_clip((m + c) / 32767) * 32767)` over the other voices sounding
at that frame, in slot order, `c` being the truncated amount
`env * sum_h weight[h] * sin((h+1) * phase) * 2047` of each (stated where these
amounts fit in `int32_t`), so the voices before and after `v` in the pool are
rendered; every other active voice whose time is not up during the cycle comes
out advanced by all its frames.  In every later cycle the slot is still
inactive and the samples are again the running mix over the other voices.
Moreover the samples at indices `≥ i`, the other voices and the later buffers
are those of a pool whose slot `v` is free. -/
theorem expired_voice_is_retired (sin : α → α) (s : Synth α) (cap : Nat) (v : Fin MAX_POLYPHONY)
    (i : Nat) (hi : i < cap / 2) (hact : (s.voices v).active = true)
    (hexp : (s.voices v).duration ≤ (s.voices v).elapsedTime + (i : α) / 44100) :
    ((audio_callback_synth sin s cap).1.voices v).active = false ∧
    (∀ j, i ≤ j → j < cap / 2 →
      (∀ u, (s.voices u).active = true →
        (s.voices u).elapsedTime + (j : α) / 44100 < (s.voices u).duration →
        |adsr_envelope (voice_at (s.voices u) j) *
          Finset.sum (Finset.range (s.voices u).num_harmonics.toNat)
            (fun h => (s.voices u).weight h *
              sin (((h : α) + 1) * (voice_at (s.voices u) j).phase)) *
          2047| ≤ 2147450000) →
      (audio_callback_synth sin s cap).2[j]? =
        some ((List.finRange MAX_POLYPHONY).foldl (fun m u =>
          if u ≠ v ∧ (s.voices u).active = true ∧
              (s.voices u).elapsedTime + (j : α) / 44100 < (s.voices u).duration then
            trunc (soft_clip (((m + trunc (adsr_envelope (voice_at (s.voices u) j) *
              Finset.sum (Finset.range (s.voices u).num_harmonics.toNat)
                (fun h => (s.voices u).weight h *
                  sin (((h : α) + 1) * (voice_at (s.voices u) j).phase)) * 2047) : Int) : α) /
              32767) * 32767)
          else m) 0)) ∧
    (∀ u, u ≠ v → (s.voices u).active = true →
      (∀ k, k < cap / 2 →
        (s.voices u).elapsedTime + (k : α) / 44100 < (s.voices u).duration) →
      (audio_callback_synth sin s cap).1.voices u = voice_at (s.voices u) (cap / 2)) ∧
    (∀ caps : List Nat,
      ((render_cycles sin (audio_callback_synth sin s cap).1 caps).1.voices v).active = false ∧
      ∀ cap' j : Nat, j < cap' / 2 →
        (∀ u, ((render_cycles sin (audio_callback_synth sin s cap).1 caps).1.voices u).active
            = true →
          ((render_cycles sin (audio_callback_synth sin s cap).1 caps).1.voices u).elapsedTime +
              (j : α) / 44100 <
            ((render_cycles sin (audio_callback_synth sin s cap).1 caps).1.voices u).duration →
          |adsr_envelope
              (voice_at ((render_cycles sin (audio_callback_synth sin s cap).1 caps).1.voices u)
                j) *
            Finset.sum (Finset.range
                ((render_cycles sin (audio_callback_synth sin s cap).1 caps).1.voices
                  u).num_harmonics.toNat)
              (fun h =>
                ((render_cycles sin (audio_callback_synth sin s cap).1 caps).1.voices u).weight h *
                sin (((h : α) + 1) *
                  (voice_at
                    ((render_cycles sin (audio_callback_synth sin s cap).1 caps).1.voices u)
                    j).phase)) *
            2047| ≤ 2147450000) →
        (audio_callback_synth sin (render_cycles sin (audio_callback_synth sin s cap).1 caps).1
            cap').2[j]? =
          some ((List.finRange MAX_POLYPHONY).foldl (fun m u =>
            if u ≠ v ∧
                ((render_cycles sin (audio_callback_synth sin s cap).1 caps).1.voices u).active
                  = true ∧
                ((render_cycles sin (audio_callback_synth sin s cap).1 caps).1.voices
                    u).elapsedTime + (j : α) / 44100 <
                  ((render_cycles sin (audio_callback_synth sin s cap).1 caps).1.voices
                    u).duration then
              trunc (soft_clip (((m + trunc (adsr_envelope
                (voice_at
                  ((render_cycles sin (audio_callback_synth sin s cap).1 caps).1.voices u) j) *
                Finset.sum (Finset.range
                    ((render_cycles sin (audio_callback_synth sin s cap).1 caps).1.voices
                      u).num_harmonics.toNat)
                  (fun h =>
                    ((render_cycles sin (audio_callback_synth sin s cap).1 caps).1.voices
                      u).weight h *
                    sin (((h : α) + 1) *
                      (voice_at
                        ((render_cycles sin (audio_callback_synth sin s cap).1 caps).1.voices u)
                        j).phase)) * 2047) : Int) : α) /
                32767) * 32767)
            else m) 0)) ∧
    (∀ j, i ≤ j → (audio_callback_synth sin s cap).2[j]? =
      (audio_callback_synth sin
        { s with voices := Function.update s.voices v { s.voices v with active := false } }
        cap).2[j]?) ∧
    (∀ u, u ≠ v → (audio_callback_synth sin s cap).1.voices u =
      (audio_callback_synth sin
        { s with voices := Function.update s.voices v { s.voices v with active := false } }
        cap).1.voices u) ∧
    (∀ caps : List Nat, ∀ w : Voice α, w.active = false →
        (render_cycles sin (audio_callback_synth sin s cap).1 caps).2 =
          (render_cycles sin
            { (audio_callback_synth sin s cap).1 with
              voices := Function.update (audio_callback_synth sin s cap).1.voices v w } caps).2) := by
  have hmix : ∀ m c : Int, -31948 ≤ m → m ≤ 31948 → -2147450000 ≤ c → c ≤ 2147450000 →
      mix_sample α m c = trunc (soft_clip (((m + c : Int) : α) / 32767) * 32767) := by
    intro m c h₁ h₂ h₃ h₄
    have hm : ((MAX_VOLUME : Nat) : α) = 32767 := by norm_num [MAX_VOLUME]
    have hr := stored_sample_range (((m + c : Int) : α) / 32767)
    simp only [mix_sample, to_int16, hm]
    rw [wrap_signed_32_id _ (by omega) (by omega)]
    exact wrap_signed_16_id _ (by omega) (by omega)
  have hamt : ∀ (k : Nat) (voice : Voice α),
      |adsr_envelope (voice_at voice k) *
        Finset.sum (Finset.range voice.num_harmonics.toNat)
          (fun h => voice.weight h * sin (((h : α) + 1) * (voice_at voice k).phase)) *
        2047| ≤ 2147450000 →
      voice_sample sin (voice_at voice k) =
        trunc (adsr_envelope (voice_at voice k) *
          Finset.sum (Finset.range voice.num_harmonics.toNat)
            (fun h => voice.weight h * sin (((h : α) + 1) * (voice_at voice k).phase)) *
          2047) := by
    intro k voice hf
    have hk : (((MAX_VOLUME / MAX_POLYPHONY : Nat) : α)) = 2047 := by
      norm_num [MAX_VOLUME, MAX_POLYPHONY]
    obtain ⟨hb₁, hb₂⟩ := trunc_abs_le _ hf
    simp only [voice_sample, hk]
    rw [harmonic_sum_at, mul_comm (Finset.sum _ _) (adsr_envelope (voice_at voice k))]
    exact to_int32_of_fits _ (by omega) (by omega)
  have hexp' : (s.voices v).duration ≤ (voice_at (s.voices v) i).elapsedTime := by
    rw [voice_at_elapsedTime]
    norm_num [SAMPLE_RATE]
    exact hexp
  obtain ⟨o1, o2, o3, o4⟩ := expired_voice_as_free_slot sin s cap v i hi hact hexp'
  refine ⟨o1, ?_, ?_, ?_, o2, o3, fun caps => (o4 caps).2⟩
  · intro j hij hj hfit
    exact cycle_sample_skipping sin s cap j hj hmix (hamt j) v
      (sounding_of_expired _ i j hij hexp') hfit
  · intro u _ hu hrun
    exact audio_callback_synth_runs sin s cap u hu hrun
  · intro caps
    refine ⟨(o4 caps).1, fun cap' j hj hfit => ?_⟩
    exact cycle_sample_skipping sin _ cap' j hj hmix (hamt j) v
      (sounding_of_inactive _ j (o4 caps).1) hfit

/-- C6 on the retire pool (an expired voice in slot 0, a loud sustained voice
in slot 1) and a one-frame cycle: slot 0 is retired, sample 0 is the running mix
over the other voices, and the voice of slot 1 has been advanced by the frame. -/
theorem expired_voice_is_retired_witness :
    ((audio_callback_synth Real.sin (⟨retire_pool ℝ, none, 0, false⟩ : Synth ℝ) 2).1.voices
      ⟨0, by decide⟩).active = false ∧
    (audio_callback_synth Real.sin (⟨retire_pool ℝ, none, 0, false⟩ : Synth ℝ) 2).2[0]? =
      some ((List.finRange MAX_POLYPHONY).foldl (fun m u =>
        if u ≠ ⟨0, by decide⟩ ∧ (retire_pool ℝ u).active = true ∧
            (retire_pool ℝ u).elapsedTime + ((0 : Nat) : ℝ) / 44100 < (retire_pool ℝ u).duration then
          trunc (soft_clip (((m + trunc (adsr_envelope (voice_at (retire_pool ℝ u) 0) *
            Finset.sum (Finset.range (retire_pool ℝ u).num_harmonics.toNat)
              (fun h => (retire_pool ℝ u).weight h *
                Real.sin (((h : ℝ) + 1) * (voice_at (retire_pool ℝ u) 0).phase)) * 2047) : Int) : ℝ) /
            32767) * 32767)
        else m) 0) ∧
    (audio_callback_synth Real.sin (⟨retire_pool ℝ, none, 0, false⟩ : Synth ℝ) 2).1.voices
      ⟨1, by decide⟩ = voice_at (retire_pool ℝ ⟨1, by decide⟩) (2 / 2) :=
  ⟨(expired_voice_is_retired Real.sin (⟨retire_pool ℝ, none, 0, false⟩ : Synth ℝ) 2
      ⟨0, by decide⟩ 0 (by decide) rfl (by simp [retire_pool])).1,
    (expired_voice_is_retired Real.sin (⟨retire_pool ℝ, none, 0, false⟩ : Synth ℝ) 2
      ⟨0, by decide⟩ 0 (by decide) rfl (by simp [retire_pool])).2.1 0 (le_refl 0) (by decide)
      retire_pool_fits,
    (expired_voice_is_retired Real.sin (⟨retire_pool ℝ, none, 0, false⟩ : Synth ℝ) 2
      ⟨0, by decide⟩ 0 (by decide) rfl (by simp [retire_pool])).2.2.1 ⟨1, by decide⟩
      (by decide) rfl
      (by
        intro k hk
        have hk0 : k = 0 := by omega
        subst hk0
        show (0.05 : ℝ) + ((0 : Nat) : ℝ) / 44100 < 10
        norm_num)⟩

end RetirementStatement
section DataChunk

/-- A serialisation in two bytes per sample has twice as many bytes as
samples. -/
theorem flatMap_length_two (enc : Int → List Nat) (henc : ∀ x, (enc x).length = 2)
    (l : List Int) : (l.flatMap enc).length = 2 * l.length := by
  induction l with
  | nil => rfl
  | cons x l ih =>
    rw [List.flatMap_cons, List.length_append, ih, henc, List.length_cons]
    ring

/-- Reading sample `m` of a list of 16-bit samples serialised by `enc` gives the
sample back, when `enc` writes two bytes that read back as the sample. -/
theorem rd16s_flatMap (enc : Int → List Nat) (henc : ∀ x, (enc x).length = 2)
    (hrd : ∀ (x : Int) (rest : List Nat), -32768 ≤ x → x ≤ 32767 →
      rd16s (enc x ++ rest) 0 = x)
    (l : List Int) (hl : ∀ x ∈ l, -32768 ≤ x ∧ x ≤ 32767) (m : Nat)
    (hm : m < l.length) : rd16s (l.flatMap enc) (2 * m) = l.getD m 0 := by
  induction l generalizing m with
  | nil => simp at hm
  | cons x l ih =>
    rw [List.flatMap_cons]
    cases m with
    | zero =>
      have := hl x (List.mem_cons_self _ _)
      simpa using hrd x (l.flatMap enc) this.1 this.2
    | succ m =>
      have hlen : (enc x).length = 2 := henc x
      have ih' := ih (fun y hy => hl y (List.mem_cons_of_mem _ hy)) m
        (by simpa using hm)
      have e1 : 2 * (m + 1) = 2 * m + 2 := by ring
      simp only [rd16s] at ih' ⊢
      rw [e1, List.getD_append_right _ _ _ _ (by rw [hlen]; omega),
        List.getD_append_right _ _ _ _ (by rw [hlen]; omega), hlen]
      have e2 : 2 * m + 2 - 2 = 2 * m := by omega
      have e3 : 2 * m + 2 + 1 - 2 = 2 * m + 1 := by omega
      rw [e2, e3]
      exact ih'

/-- Reading the data region behind a 44-byte header. -/
theorem rd16s_after_header (pre data : List Nat) (hpre : pre.length = 44) (off : Nat) :
    rd16s (pre ++ data) (44 + off) = rd16s data off := by
  simp only [rd16s]
  rw [List.getD_append_right _ _ _ _ (by omega), List.getD_append_right _ _ _ _ (by omega),
    hpre]
  have e1 : 44 + off - 44 = off := by omega
  have e2 : 44 + off + 1 - 44 = off + 1 := by omega
  rw [e1, e2]

/-- Sample `j` of buffer `k` in the concatenation of buffers of equal length. -/
theorem flatten_getD (bufs : List (List Int)) (L : Nat) (hL : ∀ b ∈ bufs, b.length = L)
    (k j : Nat) (hk : k < bufs.length) (hj : j < L) :
    bufs.flatten.getD (k * L + j) 0 = (bufs.getD k []).getD j 0 := by
  induction bufs generalizing k with
  | nil => simp at hk
  | cons b bs ih =>
    have hb : b.length = L := hL b (List.mem_cons_self _ _)
    rw [List.flatten_cons]
    cases k with
    | zero =>
      rw [Nat.zero_mul, Nat.zero_add, List.getD_append _ _ _ _ (by omega)]
      rfl
    | succ k =>
      rw [List.getD_append_right _ _ _ _ (by rw [hb]; nlinarith), hb]
      have e : (k + 1) * L + j - L = k * L + j := by
        have : (k + 1) * L = k * L + L := by ring
        omega
      rw [e, List.getD_cons_succ]
      exact ih (fun c hc => hL c (List.mem_cons_of_mem _ hc)) k (by simpa using hk)

variable {α : Type} [LinearOrderedField α] [FloorRing α]

/-- Every sample of every rendered buffer is a 16-bit value. -/
theorem render_cycles_int16 (sin : α → α) (caps : List Nat) (s : Synth α) :
    ∀ b ∈ (render_cycles sin s caps).2, ∀ x ∈ b, -32768 ≤ x ∧ x ≤ 32767 := by
  induction caps generalizing s with
  | nil => simp [render_cycles]
  | cons cap caps ih =>
    intro b hb x hx
    simp only [render_cycles, List.mem_cons] at hb
    rcases hb with rfl | hb
    · rw [audio_callback_synth_samples, List.mem_map] at hx
      obtain ⟨i, -, rfl⟩ := hx
      have := limited_running_range sin s.voices i
      exact ⟨by omega, by omega⟩
    · exact ih _ b hb x hx

end DataChunk
section RoundTrip

variable {α : Type} [LinearOrderedField α] [FloorRing α]

/-- C9: with no session open and the target opened, `start_recording`, then
`N` render cycles of 1024 frames (2048 bytes) each, then `stop_recording`
produce a byte stream of `44 + N*1024*2` bytes in which (for
`36 + N*1024*2 < 2^32`) the data-size field read at offset 40 is `N*1024*2`,
the RIFF-size field read at offset 4 is `36 + N*1024*2`, the other 36 header
bytes are those of `write_wav_header`, and reading the 16-bit little-endian
sample at byte `44 + 2*(k*1024 + j)` gives back sample `j` of the `k`-th
rendered buffer, for each of the `N` buffers of 1024 samples: the data region
holds the rendered samples in render order, byte for byte. -/
theorem wav_round_trip (sin : α → α) (s : Synth α) (N : Nat) (hrec : s.recording = false)
    (hN : 36 + N * 1024 * 2 < 2 ^ 32) :
    (stop_recording (render_cycles sin (start_recording s fopen_wb) (List.replicate N 2048)).1).2 =
      some (tag "RIFF" ++ le32 (36 + N * 1024 * 2) ++ (wav_header_44100_16_1.drop 8).take 32 ++
        le32 (N * 1024 * 2) ++
        (render_cycles sin (start_recording s fopen_wb)
          (List.replicate N 2048)).2.flatten.flatMap le16s) ∧
    ((stop_recording (render_cycles sin (start_recording s fopen_wb)
      (List.replicate N 2048)).1).2.getD []).length = 44 + N * 1024 * 2 ∧
    rd32 ((stop_recording (render_cycles sin (start_recording s fopen_wb)
      (List.replicate N 2048)).1).2.getD []) 40 = N * 1024 * 2 ∧
    rd32 ((stop_recording (render_cycles sin (start_recording s fopen_wb)
      (List.replicate N 2048)).1).2.getD []) 4 = 36 + N * 1024 * 2 ∧
    ((stop_recording (render_cycles sin (start_recording s fopen_wb)
      (List.replicate N 2048)).1).2.getD []).take 4 = wav_header_44100_16_1.take 4 ∧
    (((stop_recording (render_cycles sin (start_recording s fopen_wb)
      (List.replicate N 2048)).1).2.getD []).drop 8).take 32 =
        (wav_header_44100_16_1.drop 8).take 32 ∧
    (∀ k j, k < N → j < 1024 →
      rd16s ((stop_recording (render_cycles sin (start_recording s fopen_wb)
        (List.replicate N 2048)).1).2.getD []) (44 + 2 * (k * 1024 + j)) =
      (((render_cycles sin (start_recording s fopen_wb) (List.replicate N 2048)).2).getD k
        []).getD j 0) ∧
    (render_cycles sin (start_recording s fopen_wb) (List.replicate N 2048)).2.length = N ∧
    (∀ b ∈ (render_cycles sin (start_recording s fopen_wb) (List.replicate N 2048)).2,
      b.length = 1024) ∧
    ∀ b ∈ (render_cycles sin (start_recording s fopen_wb) (List.replicate N 2048)).2,
      ∀ x ∈ b, -32768 ≤ x ∧ x ≤ 32767 := by
  have hstart : start_recording s fopen_wb =
      { s with wav_file := some ⟨wav_header_44100_16_1, wav_header_44100_16_1.length⟩
               total_samples_written := 0
               recording := true } := by
    simp only [start_recording, hrec, fopen_wb, Bool.false_eq_true, if_false]
    rw [show SAMPLE_RATE = 44100 from rfl, header_bytes]
    rfl
  obtain ⟨h1, h2, h3⟩ := render_cycles_recording sin (List.replicate N 2048)
    (start_recording s fopen_wb) wav_header_44100_16_1 0 (by rw [hstart])
    (by rw [hstart]) (by rw [hstart]; rfl)
  obtain ⟨l1, l2, l3⟩ := render_cycles_lengths sin N 2048 (start_recording s fopen_wb)
  have hr := render_cycles_int16 sin (List.replicate N 2048) (start_recording s fopen_wb)
  set bufs := (render_cycles sin (start_recording s fopen_wb) (List.replicate N 2048)).2 with hb
  have hout : (stop_recording (render_cycles sin (start_recording s fopen_wb)
      (List.replicate N 2048)).1).2 =
      some (tag "RIFF" ++ le32 (36 + N * 1024 * 2) ++ (wav_header_44100_16_1.drop 8).take 32 ++
        le32 (N * 1024 * 2) ++ bufs.flatten.flatMap le16s) := by
    simp only [stop_recording, h1, h2, Bool.not_true, Bool.false_eq_true, if_false]
    rw [finalize_bytes, h3, l3]
    have e1 : u32 (u32 (0 + N * (2048 / 2)) * 2) = N * 1024 * 2 := by
      simp only [u32]
      omega
    have e2 : u32 (36 + N * 1024 * 2) = 36 + N * 1024 * 2 := by
      simp only [u32]
      omega
    rw [e1, e2]
  have hpre : (tag "RIFF" ++ le32 (36 + N * 1024 * 2) ++ (wav_header_44100_16_1.drop 8).take 32 ++
      le32 (N * 1024 * 2)).length = 44 := by
    simp [tag, le32, wav_header_44100_16_1]
  have hflat : bufs.flatten.length = N * 1024 := l3
  have hrange : ∀ x ∈ bufs.flatten, -32768 ≤ x ∧ x ≤ 32767 := by
    intro x hx
    obtain ⟨b, hb', hxb⟩ := List.mem_flatten.mp hx
    exact hr b hb' x hxb
  have henc : ∀ x : Int, (le16s x).length = 2 := fun _ => rfl
  have hrd : ∀ (x : Int) (rest : List Nat), -32768 ≤ x → x ≤ 32767 →
      rd16s (le16s x ++ rest) 0 = x := by
    intro x rest h₁ h₂
    simp only [rd16s, le16s, le16, List.cons_append, List.nil_append, List.getD_cons_zero,
      List.getD_cons_succ, zero_add]
    have hu : (x % 65536).toNat < 65536 := by omega
    split_ifs with h
    · omega
    · omega
  rw [hout]
  simp only [Option.getD_some]
  refine ⟨trivial, ?_, ?_, ?_, ?_, ?_, ?_, l1, l2, hr⟩
  · rw [List.length_append, hpre, flatMap_length_two le16s henc, hflat]
    ring
  · have := rd32_le32 (tag "RIFF" ++ le32 (36 + N * 1024 * 2) ++
      (wav_header_44100_16_1.drop 8).take 32) (bufs.flatten.flatMap le16s) (N * 1024 * 2)
      (by omega)
    simpa using this
  · have := rd32_le32 (tag "RIFF") ((wav_header_44100_16_1.drop 8).take 32 ++
      le32 (N * 1024 * 2) ++ bufs.flatten.flatMap le16s) (36 + N * 1024 * 2) hN
    simpa [tag, List.append_assoc] using this
  · simp [tag, le32, wav_header_44100_16_1]
  · simp [tag, le32, wav_header_44100_16_1]
  · intro k j hk hj
    rw [rd16s_after_header _ _ hpre,
      rd16s_flatMap le16s henc hrd _ hrange _ (by rw [hflat]; nlinarith)]
    exact flatten_getD bufs 1024 l2 k j (by rw [l1]; exact hk) hj

/-- C9 for five cycles from the start-up state: the length, the data-size
field, and the first sample of the third buffer read back at byte 4140. -/
theorem wav_round_trip_witness :
    ((stop_recording (render_cycles Real.sin (start_recording (Synth.init ℝ) fopen_wb)
      (List.replicate 5 2048)).1).2.getD []).length = 44 + 5 * 1024 * 2 ∧
    rd32 ((stop_recording (render_cycles Real.sin (start_recording (Synth.init ℝ) fopen_wb)
      (List.replicate 5 2048)).1).2.getD []) 40 = 5 * 1024 * 2 ∧
    rd16s ((stop_recording (render_cycles Real.sin (start_recording (Synth.init ℝ) fopen_wb)
      (List.replicate 5 2048)).1).2.getD []) (44 + 2 * (2 * 1024 + 0)) =
      (((render_cycles Real.sin (start_recording (Synth.init ℝ) fopen_wb)
        (List.replicate 5 2048)).2).getD 2 []).getD 0 0 :=
  ⟨(wav_round_trip Real.sin (Synth.init ℝ) 5 rfl (by decide)).2.1,
    (wav_round_trip Real.sin (Synth.init ℝ) 5 rfl (by decide)).2.2.1,
    (wav_round_trip Real.sin (Synth.init ℝ) 5 rfl (by decide)).2.2.2.2.2.2.1 2 0 (by decide)
      (by decide)⟩

end RoundTrip
section NeverRejected

variable {α : Type} [LinearOrderedField α]

/-- The binding calls `play_tone` with the first 100 list items at most. -/
theorem py_play_tone_eq (RAND_MAX r : Int) (s : Synth α) (freq duration : α) (velocity : Int)
    (harmonic_list : List α) :
    py_play_tone RAND_MAX r s freq duration velocity harmonic_list =
      play_tone RAND_MAX r s freq duration
        (harmonic_list.take (if (harmonic_list.length : Int) > MAX_HARMONICS then
          (MAX_HARMONICS : Int) else harmonic_list.length).toNat)
        (if (harmonic_list.length : Int) > MAX_HARMONICS then (MAX_HARMONICS : Int)
          else harmonic_list.length) velocity := rfl

/-- With a free slot every request makes one more voice active. -/
theorem play_tone_takes_slot (RAND_MAX r : Int) (s : Synth α) (freq duration : α)
    (harmonics : List α) (num_harmonics velocity : Int)
    (h : ∃ u, (s.voices u).active = false) :
    active_count (play_tone RAND_MAX r s freq duration harmonics num_harmonics velocity).voices =
      active_count s.voices + 1 := by
  obtain ⟨u, hu⟩ := h
  obtain ⟨v, -, hv, heq⟩ :=
    play_tone_alloc RAND_MAX r s freq duration harmonics num_harmonics velocity u hu
  rw [heq]
  exact active_count_update _ _ _ hv rfl

variable [FloorRing α]

/-- Time does not go back in the frame loop. -/
theorem frame_loop_elapsedTime_ge (sin : α → α) (n i : Nat) (voice : Voice α)
    (samples : Nat → Int) :
    voice.elapsedTime ≤ (frame_loop sin n i voice samples).1.elapsedTime := by
  induction n generalizing i voice samples with
  | zero => exact le_refl _
  | succ n ih =>
    unfold frame_loop
    split_ifs with h
    · exact le_refl _
    · refine le_trans ?_ (ih _ _ _)
      simp only [advance]
      have : (0 : α) ≤ 1 / (SAMPLE_RATE : α) := by norm_num [SAMPLE_RATE]
      linarith

/-- A voice whose time is not up at the start of a cycle of at least one frame
is generated for one frame at least. -/
theorem frame_loop_first_frame (sin : α → α) (n i : Nat) (voice : Voice α)
    (samples : Nat → Int) (hn : 1 ≤ n) (h : voice.elapsedTime < voice.duration) :
    voice.elapsedTime + 1 / 44100 ≤ (frame_loop sin n i voice samples).1.elapsedTime := by
  cases n with
  | zero => omega
  | succ n =>
    unfold frame_loop
    rw [if_neg (not_le.mpr h)]
    refine le_trans ?_ (frame_loop_elapsedTime_ge sin n (i + 1) _ _)
    simp only [advance]
    norm_num [SAMPLE_RATE]

/-- C2, amended: a `play_tone` request is never rejected at the call, whatever
the sign of its frequency and duration: neither `play_tone` nor `py_play_tone`
tests them, and with a free slot the request makes one more voice active.  If
its duration is `> 0` (also with a frequency `≤ 0`) the voice in the lowest free
slot is active with the frequency requested and the next render cycle of at
least one frame generates it (its `elapsedTime` goes from 0 to `1/44100` at
least).  If its duration is `≤ 0` the request has no audible effect: the next
render cycle of at least one frame gives the same buffer, the same recorder
state and the same sounding voices as without the request. -/
theorem play_tone_nonpositive_duration_silent (sin : α → α) (RAND_MAX r : Int) (s : Synth α)
    (freq duration : α) (harmonics : List α) (num_harmonics velocity : Int) (cap : Nat) :
    ((∃ u, (s.voices u).active = false) →
      active_count (play_tone RAND_MAX r s freq duration harmonics num_harmonics velocity).voices =
        active_count s.voices + 1) ∧
    ((∃ u, (s.voices u).active = false) →
      active_count (py_play_tone RAND_MAX r s freq duration velocity harmonics).voices =
        active_count s.voices + 1) ∧
    (∀ v, (s.voices v).active = false → (∀ u, u < v → (s.voices u).active = true) →
      0 < duration → 2 ≤ cap →
      ((play_tone RAND_MAX r s freq duration harmonics num_harmonics velocity).voices v).active
        = true ∧
      ((play_tone RAND_MAX r s freq duration harmonics num_harmonics velocity).voices
        v).frequency = freq ∧
      ((play_tone RAND_MAX r s freq duration harmonics num_harmonics velocity).voices
        v).elapsedTime = 0 ∧
      1 / 44100 ≤ ((audio_callback_synth sin
        (play_tone RAND_MAX r s freq duration harmonics num_harmonics velocity) cap).1.voices
        v).elapsedTime) ∧
    (duration ≤ 0 → 2 ≤ cap →
      (audio_callback_synth sin
          (play_tone RAND_MAX r s freq duration harmonics num_harmonics velocity) cap).2 =
        (audio_callback_synth sin s cap).2 ∧
      same_sounding
        (audio_callback_synth sin
          (play_tone RAND_MAX r s freq duration harmonics num_harmonics velocity) cap).1.voices
        (audio_callback_synth sin s cap).1.voices ∧
      (audio_callback_synth sin
          (play_tone RAND_MAX r s freq duration harmonics num_harmonics velocity) cap).1.wav_file =
        (audio_callback_synth sin s cap).1.wav_file ∧
      (audio_callback_synth sin
          (play_tone RAND_MAX r s freq duration harmonics num_harmonics velocity)
          cap).1.total_samples_written =
        (audio_callback_synth sin s cap).1.total_samples_written ∧
      (audio_callback_synth sin
          (play_tone RAND_MAX r s freq duration harmonics num_harmonics velocity) cap).1.recording =
        (audio_callback_synth sin s cap).1.recording) := by
  refine ⟨play_tone_takes_slot _ _ _ _ _ _ _ _, fun h => ?_, ?_, fun hd hcap => ?_⟩
  · rw [py_play_tone_eq]
    exact play_tone_takes_slot _ _ _ _ _ _ _ _ h
  · intro v hv hlow hd hcap
    have hf := first_inactive_finRange s.voices v hv hlow
    have heq : play_tone RAND_MAX r s freq duration harmonics num_harmonics velocity =
        { s with voices := (Function.update s.voices v
          (init_voice RAND_MAX r (s.voices v) freq duration harmonics
            (if num_harmonics > MAX_HARMONICS then (MAX_HARMONICS : Int) else num_harmonics)
            velocity)) } := by
      simp only [play_tone, hf]
    rw [heq, audio_callback_synth_voices, mix_voices_voices]
    simp only [Function.update_same]
    refine ⟨rfl, rfl, rfl, ?_⟩
    have hna : (init_voice RAND_MAX r (s.voices v) freq duration harmonics
        (if num_harmonics > MAX_HARMONICS then (MAX_HARMONICS : Int) else num_harmonics)
        velocity).active = true := rfl
    rw [if_pos hna]
    have := frame_loop_first_frame sin (cap / 2) 0
      (init_voice RAND_MAX r (s.voices v) freq duration harmonics
        (if num_harmonics > MAX_HARMONICS then (MAX_HARMONICS : Int) else num_harmonics)
        velocity) (fun _ => 0) (by omega) hd
    simpa [init_voice] using this
  · exact (play_tone_duration_nonpositive sin RAND_MAX r s freq duration harmonics num_harmonics
      velocity cap hd hcap).2

/-- The amended C2 on the start-up state and a cycle of 1024 frames: a request
of frequency -440 and duration 1 takes slot 0 and is generated, a request of
duration 0 leaves the buffer as it would be without it. -/
theorem play_tone_nonpositive_duration_silent_witness :
    active_count (play_tone 2147483647 0 (Synth.init ℝ) (-440) 1 [1] 1 127).voices =
      active_count (Synth.init ℝ).voices + 1 ∧
    1 / 44100 ≤ ((audio_callback_synth Real.sin
      (play_tone 2147483647 0 (Synth.init ℝ) (-440) 1 [1] 1 127) 2048).1.voices
      ⟨0, by decide⟩).elapsedTime ∧
    (audio_callback_synth Real.sin
        (play_tone 2147483647 0 (Synth.init ℝ) 440 0 [1] 1 127) 2048).2 =
      (audio_callback_synth Real.sin (Synth.init ℝ) 2048).2 :=
  ⟨(play_tone_nonpositive_duration_silent Real.sin 2147483647 0 (Synth.init ℝ) (-440) 1 [1] 1
      127 2048).1 ⟨⟨0, by decide⟩, rfl⟩,
    ((play_tone_nonpositive_duration_silent Real.sin 2147483647 0 (Synth.init ℝ) (-440) 1 [1] 1
      127 2048).2.2.1 ⟨0, by decide⟩ rfl (by decide) one_pos (by decide)).2.2.2,
    ((play_tone_nonpositive_duration_silent Real.sin 2147483647 0 (Synth.init ℝ) 440 0 [1] 1
      127 2048).2.2.2 (le_refl 0) (by decide)).1⟩

end NeverRejected

end Cellbeat
